import Mathlib

/-!
Verification of the LogLineFeatures governed-execution core against its
design document.  The development shallowly embeds the three components:

* the span lifecycle engine (`span-engine`, src/unnamed/part_001),
* the security governance engine (`security-governance`, inside
  src/unified-timeline.ts), and
* the timeline observability engine (src/timeline-observability.ts).

JavaScript `Map`s are embedded as association lists that preserve insertion
order (`Map.set` updates in place), asynchronous procedures bound to a span
(forward action, rollback, simulate) are embedded by passing the outcome of
the external call as an explicit argument to the transition, and a method
that mutates the engine and may throw is embedded as a function returning
the post-state together with an `Except` result, so that mutations performed
before a throw are kept, exactly as in the source.
-/

namespace LogLine

/-- JS `Map.get` on an insertion-ordered association list. -/
def mapGet (m : List (String × α)) (k : String) : Option α :=
  match m with
  | [] => none
  | (k2, v) :: rest => if k2 = k then some v else mapGet rest k

/-- JS `Map.set`: update the existing binding in place, else append. -/
def mapSet (m : List (String × α)) (k : String) (v : α) : List (String × α) :=
  match m with
  | [] => [(k, v)]
  | (k2, v2) :: rest =>
    if k2 = k then (k2, v) :: rest else (k2, v2) :: mapSet rest k v

/-- JS `Map.values()` in insertion order. -/
def mapValues (m : List (String × α)) : List α := m.map Prod.snd

instance [DecidableEq ε] [DecidableEq α] : DecidableEq (Except ε α) :=
  fun x y =>
    match x, y with
    | .ok a, .ok b =>
      if h : a = b then isTrue (by rw [h])
      else isFalse (by intro hh; cases hh; exact h rfl)
    | .error a, .error b =>
      if h : a = b then isTrue (by rw [h])
      else isFalse (by intro hh; cases hh; exact h rfl)
    | .ok _, .error _ => isFalse (by intro h; cases h)
    | .error _, .ok _ => isFalse (by intro h; cases h)

/-! ### JSON values

The governance engine serializes a span's argument payload with
`JSON.stringify(span.args || {})` before scanning it for PII, so we need a
small JSON value type and a faithful `JSON.stringify`. -/

inductive Json where
  | null : Json
  | bool (b : Bool) : Json
  | num (n : Int) : Json
  | str (s : String) : Json
  | arr (elems : List Json) : Json
  | obj (fields : List (String × Json)) : Json
deriving Repr

mutual
/-- Boolean structural equality on JSON values. -/
def Json.beq : Json → Json → Bool
  | .null, .null => true
  | .bool a, .bool b => a = b
  | .num a, .num b => a = b
  | .str a, .str b => a = b
  | .arr a, .arr b => Json.beqList a b
  | .obj a, .obj b => Json.beqFields a b
  | _, _ => false

/-- Boolean equality on JSON arrays. -/
def Json.beqList : List Json → List Json → Bool
  | [], [] => true
  | x :: xs, y :: ys => Json.beq x y && Json.beqList xs ys
  | _, _ => false

/-- Boolean equality on JSON object field lists. -/
def Json.beqFields : List (String × Json) → List (String × Json) → Bool
  | [], [] => true
  | (k, x) :: xs, (k2, y) :: ys =>
    k = k2 && Json.beq x y && Json.beqFields xs ys
  | _, _ => false
end

mutual
theorem Json.eq_of_beq : ∀ {a b : Json}, Json.beq a b = true → a = b
  | .null, .null, _ => rfl
  | .bool _, .bool _, h => by
    simp only [Json.beq, decide_eq_true_eq] at h; simp [h]
  | .num _, .num _, h => by
    simp only [Json.beq, decide_eq_true_eq] at h; simp [h]
  | .str _, .str _, h => by
    simp only [Json.beq, decide_eq_true_eq] at h; simp [h]
  | .arr _, .arr _, h => by
    simp only [Json.beq] at h
    simp [Json.eqList_of_beqList h]
  | .obj _, .obj _, h => by
    simp only [Json.beq] at h
    simp [Json.eqFields_of_beqFields h]

theorem Json.eqList_of_beqList :
    ∀ {a b : List Json}, Json.beqList a b = true → a = b
  | [], [], _ => rfl
  | x :: xs, y :: ys, h => by
    simp only [Json.beqList, Bool.and_eq_true] at h
    simp [Json.eq_of_beq h.1, Json.eqList_of_beqList h.2]

theorem Json.eqFields_of_beqFields :
    ∀ {a b : List (String × Json)}, Json.beqFields a b = true → a = b
  | [], [], _ => rfl
  | (k, x) :: xs, (k2, y) :: ys, h => by
    simp only [Json.beqFields, Bool.and_eq_true, decide_eq_true_eq] at h
    simp [h.1.1, Json.eq_of_beq h.1.2, Json.eqFields_of_beqFields h.2]
end

mutual
theorem Json.beq_rfl : ∀ (a : Json), Json.beq a a = true
  | .null => rfl
  | .bool _ => by simp [Json.beq]
  | .num _ => by simp [Json.beq]
  | .str _ => by simp [Json.beq]
  | .arr a => by simp [Json.beq, Json.beqList_rfl a]
  | .obj a => by simp [Json.beq, Json.beqFields_rfl a]

theorem Json.beqList_rfl : ∀ (a : List Json), Json.beqList a a = true
  | [] => rfl
  | x :: xs => by simp [Json.beqList, Json.beq_rfl x, Json.beqList_rfl xs]

theorem Json.beqFields_rfl :
    ∀ (a : List (String × Json)), Json.beqFields a a = true
  | [] => rfl
  | (k, x) :: xs => by
    simp [Json.beqFields, Json.beq_rfl x, Json.beqFields_rfl xs]
end

instance : DecidableEq Json := fun a b =>
  decidable_of_iff (Json.beq a b = true)
    ⟨Json.eq_of_beq, fun h => h ▸ Json.beq_rfl a⟩

/-- JS truthiness of a JSON value, for `span.args || {}`. -/
def Json.truthy : Json → Bool
  | .null => false
  | .bool b => b
  | .num n => n != 0
  | .str s => s ≠ ""
  | .arr _ => true
  | .obj _ => true

/-- String escaping as performed by `JSON.stringify` on string values. -/
def jsonEscapeChar (c : Char) : List Char :=
  if c = '"' then ['\\', '"']
  else if c = '\\' then ['\\', '\\']
  else if c = '\n' then ['\\', 'n']
  else if c = '\r' then ['\\', 'r']
  else if c = '\t' then ['\\', 't']
  else [c]

/-- `JSON.stringify` of a string literal, as a character list. -/
def jsonQuote (s : String) : List Char :=
  '"' :: (s.toList.flatMap jsonEscapeChar) ++ ['"']

mutual
/-- `JSON.stringify`, producing the serialized form as a character list. -/
def Json.stringify : Json → List Char
  | .null => "null".toList
  | .bool true => "true".toList
  | .bool false => "false".toList
  | .num n => (toString n).toList
  | .str s => jsonQuote s
  | .arr elems => '[' :: Json.stringifyList elems ++ [']']
  | .obj fields => '\x7b' :: Json.stringifyFields fields ++ ['\x7d']

/-- Comma-separated serialization of array elements. -/
def Json.stringifyList : List Json → List Char
  | [] => []
  | [x] => x.stringify
  | x :: y :: rest => x.stringify ++ ',' :: Json.stringifyList (y :: rest)

/-- Comma-separated serialization of object fields. -/
def Json.stringifyFields : List (String × Json) → List Char
  | [] => []
  | [(k, v)] => jsonQuote k ++ ':' :: v.stringify
  | (k, v) :: f :: rest =>
    jsonQuote k ++ ':' :: v.stringify ++ ',' :: Json.stringifyFields (f :: rest)
end

/-! ### Span lifecycle engine (src/unnamed/part_001) -/

inductive SpanType where
  | navigation | read | write | gui_automation | io_operation | computation
deriving Repr, DecidableEq

/-- The string value of the `SpanType` enum member. -/
def SpanType.toStr : SpanType → String
  | .navigation => "navigation"
  | .read => "read"
  | .write => "write"
  | .gui_automation => "gui_automation"
  | .io_operation => "io_operation"
  | .computation => "computation"

inductive SpanStatus where
  | pending | simulating | awaiting_approval | executing | completed | failed
  | rolled_back
deriving Repr, DecidableEq

inductive ChangeKind where
  | create | update | delete
deriving Repr, DecidableEq

structure SpanChange where
  kind : ChangeKind
  target : String
  before : Option Json := none
  after : Option Json := none
deriving Repr, DecidableEq

inductive ImpactLevel where
  | low | medium | high
deriving Repr, DecidableEq

structure SpanDiff where
  changes : List SpanChange
  impact : ImpactLevel
  reversible : Bool
deriving Repr, DecidableEq

/-- `SpanContext` of src/unnamed/part_001.  The interface there has no
`args` field, but `security-governance` (unified-timeline.ts:732) reads
`span.args`; JavaScript objects being open records, we carry it as an
optional field.  Spans made by `createSpan` leave it absent (`none`). -/
structure SpanContext where
  id : String
  parentId : Option String := none
  type : SpanType
  status : SpanStatus
  startTime : Nat
  endTime : Option Nat := none
  metadata : List (String × Json) := []
  reversible : Bool
  args : Option Json := none
deriving Repr, DecidableEq

/-- The data of a `SpanOperation` binding.  The three bound procedures are
external asynchronous calls; each invocation's outcome is supplied to the
corresponding engine transition as an argument, and only the presence of
the optional rollback procedure is recorded here (`createSpan` derives
`reversible` from it, `rollbackSpan` re-checks it). -/
structure SpanOperation where
  id : String
  description : String
  hasRollback : Bool
deriving Repr, DecidableEq

structure TimelineEntry where
  spanId : String
  timestamp : Nat
  event : String
deriving Repr, DecidableEq

/-- The mutable state of a `SpanEngine` instance. -/
structure EngineState where
  spans : List (String × SpanContext) := []
  operations : List (String × SpanOperation) := []
  timeline : List TimelineEntry := []
deriving Repr, DecidableEq

/-- `addTimelineEvent`. -/
def addTimelineEvent (st : EngineState) (spanId : String) (now : Nat)
    (event : String) : EngineState :=
  { st with timeline := st.timeline ++ [⟨spanId, now, event⟩] }

/-- Store an updated span context under its id (`this.spans.set`). -/
def setSpan (st : EngineState) (spanId : String) (span : SpanContext) :
    EngineState :=
  { st with spans := mapSet st.spans spanId span }

/-- `SpanEngine.createSpan`.  The generated id and `Date.now()` are
nondeterministic inputs and are passed explicitly. -/
def createSpan (st : EngineState) (spanId : String) (type : SpanType)
    (operation : SpanOperation) (parentId : Option String) (now : Nat) :
    EngineState × String :=
  let span : SpanContext :=
    { id := spanId, parentId := parentId, type := type,
      status := .pending, startTime := now, metadata := [],
      reversible := operation.hasRollback }
  let st := { st with spans := mapSet st.spans spanId span,
                      operations := mapSet st.operations spanId operation }
  (addTimelineEvent st spanId now "span_created", spanId)

/-- `SpanEngine.getSpan`. -/
def getSpan (st : EngineState) (spanId : String) : Option SpanContext :=
  mapGet st.spans spanId

/-- `SpanEngine.getAllSpans`. -/
def getAllSpans (st : EngineState) : List SpanContext := mapValues st.spans

/-- `SpanEngine.simulateSpan`.  `simOutcome` is the outcome of the bound
`operation.simulate()` call.  The source performs no status check: it
unconditionally moves the span to `simulating` and then to
`awaiting_approval` (on success) or `failed` (re-raising, on failure). -/
def simulateSpan (st : EngineState) (spanId : String) (now : Nat)
    (simOutcome : Except String SpanDiff) :
    EngineState × Except String SpanDiff :=
  match mapGet st.spans spanId, mapGet st.operations spanId with
  | some span, some _ =>
    let st := setSpan st spanId { span with status := .simulating }
    let st := addTimelineEvent st spanId now "simulation_started"
    match simOutcome with
    | .ok diff =>
      let st := setSpan st spanId { span with status := .awaiting_approval }
      (addTimelineEvent st spanId now "simulation_completed", .ok diff)
    | .error e =>
      let st := setSpan st spanId { span with status := .failed }
      (addTimelineEvent st spanId now "simulation_failed", .error e)
  | _, _ => (st, .error ("Span " ++ spanId ++ " not found"))

/-- `SpanEngine.executeSpan`.  `opOutcome` is the outcome of the bound
`operation.operation()` call.  Requires status `awaiting_approval`. -/
def executeSpan (st : EngineState) (spanId : String) (now : Nat)
    (opOutcome : Except String Json) :
    EngineState × Except String Json :=
  match mapGet st.spans spanId, mapGet st.operations spanId with
  | some span, some _ =>
    if span.status ≠ SpanStatus.awaiting_approval then
      (st, .error ("Span " ++ spanId ++ " is not ready for execution"))
    else
      let st := setSpan st spanId { span with status := .executing }
      let st := addTimelineEvent st spanId now "execution_started"
      match opOutcome with
      | .ok result =>
        let st := setSpan st spanId
          { span with status := .completed, endTime := some now }
        (addTimelineEvent st spanId now "execution_completed", .ok result)
      | .error e =>
        let st := setSpan st spanId
          { span with status := .failed, endTime := some now }
        (addTimelineEvent st spanId now "execution_failed", .error e)
  | _, _ => (st, .error ("Span " ++ spanId ++ " not found"))

/-- `SpanEngine.rollbackSpan`.  `rbOutcome` is the outcome of the bound
`operation.rollback()` call (consulted only when it is reached).  Requires
`reversible` and a supplied rollback, then status `completed`; on rollback
failure the error is re-raised and the span's status is left unchanged. -/
def rollbackSpan (st : EngineState) (spanId : String) (now : Nat)
    (rbOutcome : Except String Unit) :
    EngineState × Except String Unit :=
  match mapGet st.spans spanId, mapGet st.operations spanId with
  | some span, some operation =>
    if ¬span.reversible ∨ ¬operation.hasRollback then
      (st, .error ("Span " ++ spanId ++ " is not reversible"))
    else if span.status ≠ SpanStatus.completed then
      (st, .error ("Span " ++ spanId ++
        " cannot be rolled back in current state"))
    else
      let st := addTimelineEvent st spanId now "rollback_started"
      match rbOutcome with
      | .ok _ =>
        let st := setSpan st spanId { span with status := .rolled_back }
        (addTimelineEvent st spanId now "rollback_completed", .ok ())
      | .error e =>
        (addTimelineEvent st spanId now "rollback_failed", .error e)
  | _, _ => (st, .error ("Span " ++ spanId ++ " not found"))

/-! ### Security governance engine (`security-governance`, unified-timeline.ts)

Risk assessment, policy data model and the approval workflow. -/

inductive RiskLevel where
  | low | medium | high | critical
deriving Repr, DecidableEq

/-- The string form of a risk level. -/
def RiskLevel.toStr : RiskLevel → String
  | .low => "low"
  | .medium => "medium"
  | .high => "high"
  | .critical => "critical"

structure RiskFactor where
  type : String
  description : String
  impact : Nat
  likelihood : Nat
deriving Repr, DecidableEq

structure RiskAssessment where
  level : RiskLevel
  factors : List RiskFactor
  score : Nat
  mitigations : List String
deriving Repr, DecidableEq

/-- `SecurityGovernanceEngine.assessSpanRisk`, the part after the span
lookup: it reads only the span's `type` and `reversible` fields. -/
def assessSpanRisk (span : SpanContext) : RiskAssessment :=
  let (factors0, score0) :=
    match span.type with
    | .navigation =>
      ([RiskFactor.mk "navigation_risk" "Navigation to external domains" 3 2],
       6)
    | .write =>
      ([RiskFactor.mk "data_modification" "Potential data modification" 4 3],
       12)
    | .gui_automation =>
      ([RiskFactor.mk "user_interaction" "Automated user interactions" 3 4],
       12)
    | _ => ([], 0)
  let (factors, score) :=
    if ¬span.reversible then
      (factors0 ++
        [RiskFactor.mk "irreversible_action" "Action cannot be undone" 5 5],
       score0 + 25)
    else (factors0, score0)
  let level : RiskLevel :=
    if score ≤ 10 then .low
    else if score ≤ 20 then .medium
    else if score ≤ 35 then .high
    else .critical
  let mitigations0 : List String :=
    if level = .high ∨ level = .critical then
      ["Require manual approval before execution",
       "Enable comprehensive audit logging"]
    else []
  let mitigations :=
    if ¬span.reversible then
      mitigations0 ++ ["Create backup before execution"]
    else mitigations0
  { level := level, factors := factors, score := score,
    mitigations := mitigations }

/-- `assessSpanRisk` including the `spanEngine.getSpan` lookup. -/
def assessSpanRiskOf (eng : EngineState) (spanId : String) :
    Except String RiskAssessment :=
  match getSpan eng spanId with
  | none => .error ("Span " ++ spanId ++ " not found")
  | some span => .ok (assessSpanRisk span)

/-! ### The PII detector's regular expressions (`PIIDetector.PII_PATTERNS`)

Each of the eight source patterns is a JavaScript regex of a restricted
shape: a `\b`-delimited sequence of character-class repetitions and literal
characters (the only group, in the IP pattern, has a fixed count and is
expanded).  We embed that shape directly: a pattern is a list of items, and
the matcher implements the JS backtracking semantics — greedy quantifiers
trying the longest count first, `\b` as a word/non-word transition — with
global scanning being leftmost, non-overlapping, resuming after each
match. -/

/-- JS `\w` (ASCII word character), the basis of `\b`. -/
def wordChar (c : Char) : Bool := c.isAlpha || c.isDigit || c = '_'

/-- Wordness of the first character of the remaining input (`false` at the
end of the string). -/
def isWordHead : List Char → Bool
  | [] => false
  | c :: _ => wordChar c

/-- Wordness of the character preceding the current position after
consuming `consumed`, starting from previous wordness `prevW`. -/
def prevWAfter (prevW : Bool) (consumed : List Char) : Bool :=
  match consumed.getLast? with
  | none => prevW
  | some c => wordChar c

/-- One item of a pattern: a character-class repetition with greedy count
in `[lo, hi]` (`hi = none` means unbounded), a literal character, or a
word-boundary assertion. -/
inductive RItem where
  | cls (p : Char → Bool) (lo : Nat) (hi : Option Nat)
  | lit (c : Char)
  | wb

/-- Length of the maximal prefix of `s` whose characters satisfy `p`. -/
def leadRun (p : Char → Bool) : List Char → Nat
  | [] => 0
  | c :: cs => if p c then leadRun p cs + 1 else 0

/-- Greedy backtracking over the count of a class repetition: try consuming
`k` characters and running the continuation; on failure retry with `k - 1`,
down to `lo`. -/
def tryCls (cont : Bool → List Char → Option Nat) (prevW : Bool)
    (s : List Char) (lo : Nat) : Nat → Option Nat
  | 0 =>
    if 0 < lo then none
    else
      match cont (prevWAfter prevW (s.take 0)) (s.drop 0) with
      | some m => some (0 + m)
      | none => none
  | k + 1 =>
    if k + 1 < lo then none
    else
      match cont (prevWAfter prevW (s.take (k + 1))) (s.drop (k + 1)) with
      | some m => some (k + 1 + m)
      | none => tryCls cont prevW s lo k

/-- The backtracking matcher: `matchItems items prevW s` returns the number
of characters a match of `items` anchored at the current position consumes,
following the JS engine's greedy, first-found semantics, or `none`. -/
def matchItems : List RItem → Bool → List Char → Option Nat
  | [], _, _ => some 0
  | .wb :: its, prevW, s =>
    if prevW ≠ isWordHead s then matchItems its prevW s else none
  | .lit c :: its, _, s =>
    match s with
    | [] => none
    | d :: rest =>
      if d = c then (matchItems its (wordChar d) rest).map (· + 1) else none
  | .cls p lo hi :: its, prevW, s =>
    let run := leadRun p s
    let kmax := match hi with | none => run | some h => min h run
    tryCls (fun pw s2 => matchItems its pw s2) prevW s lo kmax

/-- Global scan counting matches (`content.match(re).length` for a `g`
regex; `0` when there is no match).  One unit of fuel is spent per input
character, so `fuel = s.length` always suffices; every pattern of
`PII_PATTERNS` consumes at least one character per match. -/
def scanCountF (pat : List RItem) : Nat → Bool → List Char → Nat
  | 0, _, _ => 0
  | _ + 1, _, [] => 0
  | fuel + 1, prevW, c :: cs =>
    match matchItems pat prevW (c :: cs) with
    | some (n + 1) =>
      1 + scanCountF pat fuel (prevWAfter prevW ((c :: cs).take (n + 1)))
            ((c :: cs).drop (n + 1))
    | _ => scanCountF pat fuel (wordChar c) cs

/-- `content.match(re)` match count. -/
def scanCount (pat : List RItem) (s : List Char) : Nat :=
  scanCountF pat s.length false s

/-- A piece of a replacement decomposition: a character left in place, or a
consumed match to be replaced by the mask. -/
inductive Chunk where
  | keep (c : Char)
  | rep (consumed : List Char)

/-- Global-replace decomposition of the input: scan left to right, cutting
out each leftmost match.  When fuel runs out (never, for
`fuel ≥ s.length`) the rest is kept verbatim. -/
def chunksF (pat : List RItem) : Nat → Bool → List Char → List Chunk
  | 0, _, s => s.map Chunk.keep
  | _ + 1, _, [] => []
  | fuel + 1, prevW, c :: cs =>
    match matchItems pat prevW (c :: cs) with
    | some (n + 1) =>
      Chunk.rep ((c :: cs).take (n + 1)) ::
        chunksF pat fuel (prevWAfter prevW ((c :: cs).take (n + 1)))
          ((c :: cs).drop (n + 1))
    | _ => Chunk.keep c :: chunksF pat fuel (wordChar c) cs

/-- Reassemble a decomposition, substituting `mask` for each match. -/
def renderChunks (mask : List Char) : List Chunk → List Char
  | [] => []
  | .keep c :: rest => c :: renderChunks mask rest
  | .rep _ :: rest => mask ++ renderChunks mask rest

/-- Reassemble a decomposition into the original input. -/
def joinChunks : List Chunk → List Char
  | [] => []
  | .keep c :: rest => c :: joinChunks rest
  | .rep b :: rest => b ++ joinChunks rest

/-- JS `s.replace(re, mask)` for a `g`-flagged regex. -/
def maskPattern (pat : List RItem) (mask : List Char) (s : List Char) :
    List Char :=
  renderChunks mask (chunksF pat s.length false s)

/-- `\d`. -/
def digitChar (c : Char) : Bool := c.isDigit

/-- `[A-Z]`. -/
def upperChar (c : Char) : Bool := 'A' ≤ c && c ≤ 'Z'

/-- `[A-Za-z0-9._%+-]`, the email local part. -/
def localChar (c : Char) : Bool :=
  c.isAlpha || c.isDigit || c = '.' || c = '_' || c = '%' || c = '+' ||
    c = '-'

/-- `[A-Za-z0-9.-]`, the email domain part. -/
def domainChar (c : Char) : Bool :=
  c.isAlpha || c.isDigit || c = '.' || c = '-'

/-- `[A-Z|a-z]`, the email TLD part (the source class contains a literal
pipe character). -/
def tldChar (c : Char) : Bool := c.isAlpha || c = '|'

/-- `[-.]`. -/
def dashDotChar (c : Char) : Bool := c = '-' || c = '.'

/-- JS `\s` restricted to the whitespace characters that occur in practice
(space, tab, line feed, vertical tab, form feed, carriage return, no-break
space). -/
def jsSpaceChar (c : Char) : Bool :=
  c = ' ' || c = '\t' || c = '\n' || c = '\x0b' || c = '\x0c' || c = '\r' ||
    c = '\u00A0'

/-- `[\s-]`. -/
def spaceDashChar (c : Char) : Bool := jsSpaceChar c || c = '-'

/-- `/\b[A-Za-z0-9._%+-]+@[A-Za-z0-9.-]+\.[A-Z|a-z]{2,}\b/g`. -/
def emailPattern : List RItem :=
  [.wb, .cls localChar 1 none, .lit '@', .cls domainChar 1 none, .lit '.',
   .cls tldChar 2 none, .wb]

/-- `/\b\d{3}-\d{2}-\d{4}\b/g`. -/
def ssnPattern : List RItem :=
  [.wb, .cls digitChar 3 (some 3), .lit '-', .cls digitChar 2 (some 2),
   .lit '-', .cls digitChar 4 (some 4), .wb]

/-- `/\b\d{3}[-.]?\d{3}[-.]?\d{4}\b/g`. -/
def phonePattern : List RItem :=
  [.wb, .cls digitChar 3 (some 3), .cls dashDotChar 0 (some 1),
   .cls digitChar 3 (some 3), .cls dashDotChar 0 (some 1),
   .cls digitChar 4 (some 4), .wb]

/-- `/\b\d{4}[\s-]?\d{4}[\s-]?\d{4}[\s-]?\d{4}\b/g`. -/
def creditCardPattern : List RItem :=
  [.wb, .cls digitChar 4 (some 4), .cls spaceDashChar 0 (some 1),
   .cls digitChar 4 (some 4), .cls spaceDashChar 0 (some 1),
   .cls digitChar 4 (some 4), .cls spaceDashChar 0 (some 1),
   .cls digitChar 4 (some 4), .wb]

/-- `/\b(?:\d{1,3}\.){3}\d{1,3}\b/g`, with the fixed-count group
expanded. -/
def ipAddressPattern : List RItem :=
  [.wb, .cls digitChar 1 (some 3), .lit '.', .cls digitChar 1 (some 3),
   .lit '.', .cls digitChar 1 (some 3), .lit '.', .cls digitChar 1 (some 3),
   .wb]

/-- `/\b[A-Z]{1,2}\d{6,9}\b/g`. -/
def passportPattern : List RItem :=
  [.wb, .cls upperChar 1 (some 2), .cls digitChar 6 (some 9), .wb]

/-- `/\b[A-Z]{1,2}\d{6,8}\b/g`. -/
def driverLicensePattern : List RItem :=
  [.wb, .cls upperChar 1 (some 2), .cls digitChar 6 (some 8), .wb]

/-- `/\b\d{8,17}\b/g`. -/
def bankAccountPattern : List RItem :=
  [.wb, .cls digitChar 8 (some 17), .wb]

/-- The `PII_PATTERNS` table in source (`Object.entries`) order, paired
with each type's masking token from the `switch` in `detectPII`. -/
def PII_PATTERNS : List (String × List RItem × List Char) :=
  [("email", emailPattern, "***@***.***".toList),
   ("ssn", ssnPattern, "***-**-****".toList),
   ("phone", phonePattern, "***-***-****".toList),
   ("creditCard", creditCardPattern, "****-****-****-****".toList),
   ("ipAddress", ipAddressPattern, "***.***.***.***".toList),
   ("passport", passportPattern, "***REDACTED***".toList),
   ("driverLicense", driverLicensePattern, "***REDACTED***".toList),
   ("bankAccount", bankAccountPattern, "***REDACTED***".toList)]

structure PIIDetectionResult where
  hasPII : Bool
  piiTypes : List String
  confidence : ℚ
  maskedContent : List Char
  originalContent : List Char
deriving Repr, DecidableEq

/-- One iteration of the `for…of Object.entries(PII_PATTERNS)` loop in
`detectPII`: matches are counted on the original content, masking is
applied to the accumulated masked content.  The JS float increment `0.1`
per match is embedded as the rational `1/10`. -/
def detectPIIStep (content : List Char) (acc : List String × ℚ × List Char)
    (entry : String × List RItem × List Char) : List String × ℚ × List Char :=
  let cnt := scanCount entry.2.1 content
  if 0 < cnt then
    (acc.1 ++ [entry.1], acc.2.1 + cnt * (1 / 10),
     maskPattern entry.2.1 entry.2.2 acc.2.2)
  else acc

/-- `PIIDetector.detectPII`. -/
def detectPII (content : List Char) : PIIDetectionResult :=
  let r := PII_PATTERNS.foldl (detectPIIStep content) ([], 0, content)
  { hasPII := decide (0 < r.1.length), piiTypes := r.1,
    confidence := min r.2.1 1, maskedContent := r.2.2,
    originalContent := content }

/-! ### Policy evaluation and the approval workflow -/

inductive RuleType where
  | allow | deny | require_approval
deriving Repr, DecidableEq

structure TimeRestrictions where
  allowedHoursStart : Option Nat := none
  allowedHoursEnd : Option Nat := none
  allowedDays : Option (List Nat) := none
deriving Repr, DecidableEq

structure PolicyCondition where
  spanType : Option (List String) := none
  targetDomains : Option (List String) := none
  riskLevel : Option (List String) := none
  userRoles : Option (List String) := none
  timeRestrictions : Option TimeRestrictions := none
deriving Repr, DecidableEq

structure PolicyRule where
  id : String
  type : RuleType
  condition : PolicyCondition
  action : String
  priority : Nat
deriving Repr, DecidableEq

structure SecurityPolicy where
  id : String
  name : String
  description : String
  rules : List PolicyRule
  enabled : Bool
  created : Nat
  lastModified : Nat
deriving Repr, DecidableEq

inductive ApproverState where
  | pending | approved | rejected
deriving Repr, DecidableEq

structure ApprovalStatus where
  userId : String
  status : ApproverState
  timestamp : Option Nat := none
  comment : Option String := none
deriving Repr, DecidableEq

inductive OverallApproval where
  | pending | approved | rejected | expired
deriving Repr, DecidableEq

structure GovernanceApproval where
  id : String
  spanId : String
  requestedBy : String
  requestedAt : Nat
  approvers : List ApprovalStatus
  status : OverallApproval
  riskAssessment : RiskAssessment
  expiresAt : Nat
deriving Repr, DecidableEq

/-- The mutable state of a `SecurityGovernanceEngine` instance
(the parts the verified operations touch). -/
structure GovState where
  policies : List (String × SecurityPolicy) := []
  approvals : List (String × GovernanceApproval) := []
deriving Repr, DecidableEq

/-- `getRequiredApprovers`. -/
def getRequiredApprovers : RiskLevel → List String
  | .low => []
  | .medium => ["approver_1"]
  | .high => ["approver_1", "approver_2"]
  | .critical => ["approver_1", "approver_2", "security_admin"]

/-- JS `Array.prototype.find` on the approver list. -/
def findApprover (approvers : List ApprovalStatus) (userId : String) :
    Option ApprovalStatus :=
  approvers.find? (fun a => a.userId = userId)

/-- Replace the first approver entry for `userId` (the object mutated in
place by the source) with `entry`. -/
def updateApprover (approvers : List ApprovalStatus) (userId : String)
    (entry : ApprovalStatus) : List ApprovalStatus :=
  match approvers with
  | [] => []
  | a :: rest =>
    if a.userId = userId then entry :: rest
    else a :: updateApprover rest userId entry

/-- `SecurityGovernanceEngine.approveSpan`.  Requires the approval to exist
and be `pending` and the user to be a listed approver; marks the approver
approved and, when every approver has approved, the whole approval. -/
def approveSpan (gov : GovState) (approvalId userId : String)
    (comment : Option String) (now : Nat) : Except String GovState :=
  match mapGet gov.approvals approvalId with
  | none => .error ("Approval " ++ approvalId ++ " not found")
  | some approval =>
    if approval.status ≠ OverallApproval.pending then
      .error ("Approval " ++ approvalId ++ " is not pending")
    else
      match findApprover approval.approvers userId with
      | none =>
        .error ("User " ++ userId ++ " is not an approver for this request")
      | some approver =>
        let entry : ApprovalStatus :=
          { approver with status := .approved, timestamp := some now,
                          comment := comment }
        let approvers := updateApprover approval.approvers userId entry
        let allApproved := approvers.all (fun a => a.status = .approved)
        let approval :=
          { approval with approvers := approvers,
                          status := if allApproved then .approved
                                    else approval.status }
        .ok { gov with approvals := mapSet gov.approvals approvalId approval }

/-- `SecurityGovernanceEngine.rejectSpan`.  The source checks that the
approval exists and that the user is a listed approver, but (unlike
`approveSpan`) performs no `pending` check; it then marks the approver and
the whole approval rejected. -/
def rejectSpan (gov : GovState) (approvalId userId : String)
    (comment : Option String) (now : Nat) : Except String GovState :=
  match mapGet gov.approvals approvalId with
  | none => .error ("Approval " ++ approvalId ++ " not found")
  | some approval =>
    match findApprover approval.approvers userId with
    | none =>
      .error ("User " ++ userId ++ " is not an approver for this request")
    | some approver =>
      let entry : ApprovalStatus :=
        { approver with status := .rejected, timestamp := some now,
                        comment := comment }
      let approvers := updateApprover approval.approvers userId entry
      let approval :=
        { approval with approvers := approvers, status := .rejected }
      .ok { gov with approvals := mapSet gov.approvals approvalId approval }

/-- `startsWith` on character lists. -/
def startsWithChars : List Char → List Char → Bool
  | [], _ => true
  | _ :: _, [] => false
  | a :: as, b :: bs => a = b && startsWithChars as bs

/-- JS `String.prototype.includes` (substring test) on character lists. -/
def includesChars (sub : List Char) : List Char → Bool
  | [] => startsWithChars sub []
  | c :: rest => startsWithChars sub (c :: rest) || includesChars sub rest

/-- `SecurityGovernanceEngine.hasApprovedPIIContract`: some stored approval
for this span is `approved` and has a risk factor whose `type` contains
`"pii"`. -/
def hasApprovedPIIContract (gov : GovState) (spanId : String) : Bool :=
  (mapValues gov.approvals).any fun approval =>
    approval.spanId = spanId && approval.status = OverallApproval.approved &&
      approval.riskAssessment.factors.any fun factor =>
        includesChars "pii".toList factor.type.toList

/-- Modelled from the spec: `SecurityGovernanceEngine.ruleApplies` is
invoked at unified-timeline.ts:750 but its definition is absent from the
sources.  Per the spec (§3, §4.2) a rule's condition is "any combination
of: span type set, target domain set, risk level set, role set,
time-of-day/day-of-week window" and rules are matched against "(span type,
risk level, …)", so we model a rule as applying when every component its
condition specifies matches; the components whose subject data a span does
not carry (target domain, user roles, time window) are treated as
matching.  No claim verified below depends on this body. -/
def ruleApplies (rule : PolicyRule) (span : SpanContext)
    (risk : RiskAssessment) : Bool :=
  (match rule.condition.spanType with
   | none => true
   | some types => types.contains span.type.toStr) &&
  (match rule.condition.riskLevel with
   | none => true
   | some levels => levels.contains risk.level.toStr)

/-- The result record of `evaluateSpanAgainstPolicies`. -/
structure EvalResult where
  allowed : Bool
  requiresApproval : Bool
  violations : List String
  applicablePolicies : List String
  piiDetected : Bool
  contractRequired : Bool
deriving Repr, DecidableEq

/-- The `switch (rule.type)` body of the policy-evaluation loop. -/
def applyRule (policy : SecurityPolicy) (span : SpanContext)
    (risk : RiskAssessment) (acc : EvalResult) (rule : PolicyRule) :
    EvalResult :=
  if ruleApplies rule span risk then
    let acc :=
      { acc with applicablePolicies := acc.applicablePolicies ++ [policy.id] }
    match rule.type with
    | .deny =>
      { acc with allowed := false,
                 violations := acc.violations ++
                   ["Policy '" ++ policy.name ++ "': " ++ rule.action] }
    | .require_approval => { acc with requiresApproval := true }
    | .allow => acc
  else acc

/-- The value serialized by `JSON.stringify(span.args || {})`. -/
def spanArgsJson (span : SpanContext) : Json :=
  match span.args with
  | some v => if v.truthy then v else Json.obj []
  | none => Json.obj []

/-- `SecurityGovernanceEngine.evaluateSpanAgainstPolicies`: risk
assessment, PII scan of `JSON.stringify(span.args || {})`, the
unconditional PII/contract gate, then every enabled policy's rules. -/
def evaluateSpanAgainstPolicies (gov : GovState) (eng : EngineState)
    (spanId : String) : Except String EvalResult :=
  match getSpan eng spanId with
  | none => .error ("Span " ++ spanId ++ " not found")
  | some span =>
    let riskAssessment := assessSpanRisk span
    let spanContent := Json.stringify (spanArgsJson span)
    let piiResult := detectPII spanContent
    let piiDetected := piiResult.hasPII
    let init : EvalResult :=
      if piiDetected && !hasApprovedPIIContract gov spanId then
        { allowed := true, requiresApproval := true,
          violations :=
            ["PII detected - contract approval required before execution"],
          applicablePolicies := [], piiDetected := piiDetected,
          contractRequired := true }
      else
        { allowed := true, requiresApproval := false, violations := [],
          applicablePolicies := [], piiDetected := piiDetected,
          contractRequired := false }
    .ok ((mapValues gov.policies).foldl
      (fun acc policy =>
        if !policy.enabled then acc
        else policy.rules.foldl (applyRule policy span riskAssessment) acc)
      init)

/-- The domain list of the default `domain-restrictions` policy. -/
def restrictedDomains : List String :=
  ["admin.internal", "secure.company.com", "*.gov"]

/-- The time window of the default (disabled) `business-hours` policy. -/
def businessHoursWindow : TimeRestrictions :=
  { allowedHoursStart := some 9, allowedHoursEnd := some 17,
    allowedDays := some [1, 2, 3, 4, 5] }

/-- `initializeDefaultPolicies` (creation timestamps passed in). -/
def defaultPolicies (now : Nat) : List (String × SecurityPolicy) :=
  [("high-risk-approval",
    { id := "high-risk-approval",
      name := "High Risk Operations Require Approval",
      description :=
        "Operations with high risk level must be approved before execution",
      rules := [{ id := "rule-1", type := .require_approval,
                  condition := { riskLevel := some ["high", "critical"] },
                  action := "require_governance_approval", priority := 1 }],
      enabled := true, created := now, lastModified := now }),
   ("domain-restrictions",
    { id := "domain-restrictions",
      name := "Domain Access Restrictions",
      description := "Restrict access to sensitive domains",
      rules := [{ id := "rule-2", type := .deny,
                  condition := { targetDomains := some restrictedDomains },
                  action := "block_access", priority := 2 }],
      enabled := true, created := now, lastModified := now }),
   ("business-hours",
    { id := "business-hours",
      name := "Business Hours Only",
      description := "Restrict automation to business hours",
      rules := [{ id := "rule-3", type := .deny,
                  condition := { timeRestrictions := some businessHoursWindow },
                  action := "time_restriction", priority := 3 }],
      enabled := false, created := now, lastModified := now })]

/-! ### Timeline observability engine (src/timeline-observability.ts)

The `TimelineEvent`, `TimelineQuery`, `PerformanceMetric` and
`MetricsQuery` interfaces are imported there from type modules absent from
the sources; their fields are modelled from the engine's accesses and the
spec's data model (§3): events carry id/timestamp/type/source/severity/
message/metadata/tags and optional span/user ids; queries carry a time
range, type/metric-name, source, severity, span-id, user-id and tag sets,
and offset/limit pagination.  Event types are embedded as strings since
the `EventType` enum module is also absent. -/

inductive Severity where
  | info | warning | error | critical
deriving Repr, DecidableEq

structure TimelineEvent where
  id : String
  timestamp : Nat
  type : String
  source : String
  spanId : Option String := none
  userId : Option String := none
  severity : Severity
  message : String
  metadata : List (String × Json) := []
  tags : List String := []
deriving Repr, DecidableEq

structure TimelineQuery where
  startTime : Option Nat := none
  endTime : Option Nat := none
  eventTypes : Option (List String) := none
  sources : Option (List String) := none
  severities : Option (List Severity) := none
  spanIds : Option (List String) := none
  userIds : Option (List String) := none
  tags : Option (List String) := none
  offset : Option Nat := none
  limit : Option Nat := none
deriving Repr, DecidableEq

structure PerformanceMetric where
  id : String
  timestamp : Nat
  metric : String
  value : Int
  unit : String
  source : String
  tags : List (String × String) := []
deriving Repr, DecidableEq

/-- Modelled from the spec: the `MetricsQuery` interface module is absent
from the sources; §4.3 specifies filtering "by time range, type/metric-name
set, source set … with offset/limit pagination", so the query shape carries
those fields. -/
structure MetricsQuery where
  startTime : Option Nat := none
  endTime : Option Nat := none
  metrics : Option (List String) := none
  sources : Option (List String) := none
  offset : Option Nat := none
  limit : Option Nat := none
deriving Repr, DecidableEq

/-- JS truthiness of an optional number (`0` is falsy), used by the
`if (query.startTime)`-style guards. -/
def truthyNat : Option Nat → Bool
  | none => false
  | some n => n ≠ 0

/-- Stable insertion sort: the unique stable result of JS
`Array.prototype.sort` under comparator `le` (ties keep original order). -/
def insertBy (le : α → α → Bool) (x : α) : List α → List α
  | [] => [x]
  | y :: ys => if le x y then x :: y :: ys else y :: insertBy le x ys

/-- Stable sort by `le` (see `insertBy`). -/
def sortBy (le : α → α → Bool) : List α → List α
  | [] => []
  | x :: xs => insertBy le x (sortBy le xs)

/-- The comparator `(a, b) => b.timestamp - a.timestamp` (newest first). -/
def newestFirst (a b : TimelineEvent) : Bool := b.timestamp ≤ a.timestamp

/-- The filter cascade of `queryEvents`. -/
def filterEvents (q : TimelineQuery) (events : List TimelineEvent) :
    List TimelineEvent :=
  let es := events
  let es := if truthyNat q.startTime then
    es.filter (fun e => (q.startTime.getD 0) ≤ e.timestamp) else es
  let es := if truthyNat q.endTime then
    es.filter (fun e => e.timestamp ≤ q.endTime.getD 0) else es
  let es := match q.eventTypes with
    | some l => if 0 < l.length then es.filter (fun e => l.contains e.type)
                else es
    | none => es
  let es := match q.sources with
    | some l => if 0 < l.length then es.filter (fun e => l.contains e.source)
                else es
    | none => es
  let es := match q.severities with
    | some l => if 0 < l.length then
                  es.filter (fun e => l.contains e.severity)
                else es
    | none => es
  let es := match q.spanIds with
    | some l => if 0 < l.length then
                  es.filter (fun e => match e.spanId with
                    | some sid => l.contains sid
                    | none => false)
                else es
    | none => es
  let es := match q.userIds with
    | some l => if 0 < l.length then
                  es.filter (fun e => match e.userId with
                    | some uid => l.contains uid
                    | none => false)
                else es
    | none => es
  match q.tags with
  | some l => if 0 < l.length then
                es.filter (fun e => l.any (fun t => e.tags.contains t))
              else es
  | none => es

/-- `query.offset || 0` (JS `0` is falsy, so it also maps to `0`). -/
def jsOffset (q : TimelineQuery) : Nat :=
  match q.offset with
  | none => 0
  | some o => o

/-- `query.limit || 100` (JS `0` is falsy, so an explicit `0` also yields
the default `100`). -/
def jsLimit (q : TimelineQuery) : Nat :=
  match q.limit with
  | none => 100
  | some l => if l = 0 then 100 else l

/-- `TimelineObservabilityEngine.queryEvents`: filter, sort newest-first,
then paginate with `offset || 0` and `limit || 100`. -/
def queryEvents (events : List TimelineEvent) (q : TimelineQuery) :
    List TimelineEvent :=
  (((sortBy newestFirst (filterEvents q events)).drop (jsOffset q)).take
    (jsLimit q))

/-- The comparator `(a, b) => b.timestamp - a.timestamp` on metrics. -/
def newestFirstM (a b : PerformanceMetric) : Bool := b.timestamp ≤ a.timestamp

/-- The filter cascade of `queryMetrics`. -/
def filterMetrics (q : MetricsQuery) (metrics : List PerformanceMetric) :
    List PerformanceMetric :=
  let ms := metrics
  let ms := if truthyNat q.startTime then
    ms.filter (fun m => (q.startTime.getD 0) ≤ m.timestamp) else ms
  let ms := if truthyNat q.endTime then
    ms.filter (fun m => m.timestamp ≤ q.endTime.getD 0) else ms
  let ms := match q.metrics with
    | some l => if 0 < l.length then ms.filter (fun m => l.contains m.metric)
                else ms
    | none => ms
  match q.sources with
  | some l => if 0 < l.length then ms.filter (fun m => l.contains m.source)
              else ms
  | none => ms

/-- `TimelineObservabilityEngine.queryMetrics`: filter and sort
newest-first.  The source returns the whole sorted result; it reads no
`offset`/`limit` from the query. -/
def queryMetrics (metrics : List PerformanceMetric) (q : MetricsQuery) :
    List PerformanceMetric :=
  sortBy newestFirstM (filterMetrics q metrics)

/-- The event-buffer update of `logEvent`: push the new event, then keep
only the most recent 1000 (`this.events.slice(-1000)`).  Listener
side effects and the generated id are outside this state. -/
def logEventStore (events : List TimelineEvent) (e : TimelineEvent) :
    List TimelineEvent :=
  let es := events ++ [e]
  if 1000 < es.length then es.drop (es.length - 1000) else es

/-! ### Declarative match semantics for the PII patterns

`Sat2 pat prevW u nextW` states that the pattern matches exactly the
characters `u`, given that the character before `u` has wordness `prevW`
and the character following `u` has wordness `nextW` — a match depends on
its surroundings only through these two booleans, which is what makes the
masking analysis tractable.  `sat2CheckAux` decides it. -/

/-- Wordness of the first character of `u`, falling back to the wordness
`nextW` of whatever follows `u` when `u` is empty. -/
def isWordHeadD (u : List Char) (nextW : Bool) : Bool :=
  match u with
  | [] => nextW
  | c :: _ => wordChar c

inductive Sat2 : List RItem → Bool → List Char → Bool → Prop where
  | nil (prevW nextW) : Sat2 [] prevW [] nextW
  | wb (its : List RItem) (prevW : Bool) (u : List Char) (nextW : Bool) :
      prevW ≠ isWordHeadD u nextW → Sat2 its prevW u nextW →
      Sat2 (.wb :: its) prevW u nextW
  | lit (c : Char) (its : List RItem) (prevW : Bool) (rest : List Char)
      (nextW : Bool) :
      Sat2 its (wordChar c) rest nextW →
      Sat2 (.lit c :: its) prevW (c :: rest) nextW
  | cls (p : Char → Bool) (lo : Nat) (hi : Option Nat) (its : List RItem)
      (prevW : Bool) (taken rest : List Char) (nextW : Bool) :
      lo ≤ taken.length → (∀ h, hi = some h → taken.length ≤ h) →
      (∀ c ∈ taken, p c = true) →
      Sat2 its (prevWAfter prevW taken) rest nextW →
      Sat2 (.cls p lo hi :: its) prevW (taken ++ rest) nextW

/-- Backtracking count loop for `sat2CheckAux` (analogous to `tryCls`). -/
def tryCls2 (cont : Bool → List Char → Bool) (prevW : Bool) (u : List Char)
    (lo : Nat) (k : Nat) : Bool :=
  if k < lo then false
  else if cont (prevWAfter prevW (u.take k)) (u.drop k) then true
  else
    match k with
    | 0 => false
    | k2 + 1 => tryCls2 cont prevW u lo k2

/-- Decision procedure for `Sat2`: does the pattern match exactly `u` in
the context `(prevW, nextW)`? -/
def sat2CheckAux : List RItem → Bool → List Char → Bool → Bool
  | [], _, u, _ => u.isEmpty
  | .wb :: its, prevW, u, nextW =>
    (prevW != isWordHeadD u nextW) && sat2CheckAux its prevW u nextW
  | .lit c :: its, _, u, nextW =>
    match u with
    | [] => false
    | d :: rest => d = c && sat2CheckAux its (wordChar d) rest nextW
  | .cls p lo hi :: its, prevW, u, nextW =>
    let run := leadRun p u
    let kmax := match hi with | none => run | some h => min h run
    tryCls2 (fun pw r => sat2CheckAux its pw r nextW) prevW u lo kmax

/-- Least number of characters any match of the pattern consumes. -/
def minConsume : List RItem → Nat
  | [] => 0
  | .wb :: its => minConsume its
  | .lit _ :: its => minConsume its + 1
  | .cls _ lo _ :: its => minConsume its + lo

/-- No item of the pattern can consume a `'*'`. -/
def itemNoStarB : RItem → Bool
  | .cls p _ _ => !p '*'
  | .lit c => c ≠ '*'
  | .wb => true

/-- `Occ pat pw s` — the pattern matches somewhere inside `s`, whose
preceding character has wordness `pw`. -/
def Occ (pat : List RItem) (pw : Bool) (s : List Char) : Prop :=
  ∃ s1 u s2, s = s1 ++ u ++ s2 ∧
    Sat2 pat (prevWAfter pw s1) u (isWordHead s2)

/-- No substring of the mask's interior, in its surrounding context inside
the mask, matches the pattern.  (Matches cannot reach the mask's first or
last character, which are `'*'`.) -/
def MaskClean (pat : List RItem) (m : List Char) : Prop :=
  ∀ t1 u r, m = t1 ++ u ++ r → t1 ≠ [] → u ≠ [] → r ≠ [] →
    ¬ Sat2 pat (prevWAfter false t1) u (isWordHead r)

/-- Bounded check deciding `MaskClean` by enumerating the start offset and
length of a candidate interior match. -/
def maskCleanB (pat : List RItem) (m : List Char) : Bool :=
  (List.range m.length).all fun j =>
    (List.range m.length).all fun len =>
      decide (j = 0) || decide (len = 0) ||
        decide (m.length ≤ j + len) ||
        !sat2CheckAux pat (prevWAfter false (m.take j))
          ((m.drop j).take len) (isWordHead (m.drop (j + len)))

/-- The pattern-shape facts the masking analysis needs: a leading and
trailing word-boundary assertion, a first consuming item that is a
mandatory class, at least one consumed character, and no item admitting
`'*'`. -/
def GoodPat (pat : List RItem) : Prop :=
  (∃ p lo hi rest, pat = .wb :: .cls p lo hi :: rest ∧ 1 ≤ lo) ∧
  (∃ front, pat = front ++ [.wb]) ∧
  1 ≤ minConsume pat ∧
  (∀ it ∈ pat, itemNoStarB it = true)

/-- The mask-shape facts the masking analysis needs: the mask starts and
ends with `'*'`. -/
def GoodMask (m : List Char) : Prop :=
  (∃ t, m = '*' :: t) ∧ (∃ t, m = t ++ ['*'])

/-- The pattern occurs nowhere in `x`, scanned from the string start
(where the preceding wordness is `false`, as in the global scan). -/
def NoOcc (pat : List RItem) (x : List Char) : Prop :=
  ∀ s1 u s2, x = s1 ++ u ++ s2 →
    ¬Sat2 pat (prevWAfter false s1) u (isWordHead s2)

/-! ### Specification-side formulas

Named formulas taken from the design document, to be compared with what
the embedded code computes. -/

/-- The documented fixed per-type risk weight (write 12, gui-automation
12, navigation 6, others 0). -/
def specTypeWeight : SpanType → Nat
  | .write => 12
  | .gui_automation => 12
  | .navigation => 6
  | _ => 0

/-- The documented score thresholds: ≤10 low, ≤20 medium, ≤35 high,
otherwise critical. -/
def specLevelOf (score : Nat) : RiskLevel :=
  if score ≤ 10 then .low
  else if score ≤ 20 then .medium
  else if score ≤ 35 then .high
  else .critical

/-! ### Concrete instances

Closed engine states and workflows used to evaluate the embedded code at
specific inputs. -/

/-- A trivial diff returned by a successful simulate procedure. -/
def demoDiff : SpanDiff := { changes := [], impact := .low, reversible := true }

/-- An operation binding without a rollback procedure. -/
def demoOp : SpanOperation :=
  { id := "op_fwd", description := "demo operation", hasRollback := false }

/-- An operation binding with a rollback procedure. -/
def demoOpRb : SpanOperation :=
  { id := "op_rev", description := "reversible operation", hasRollback := true }

/-- Engine after `createSpan` of a `read` span. -/
def c1State1 : EngineState :=
  (createSpan {} "span_a" .read demoOp none 0).1

/-- … after a first successful `simulateSpan`. -/
def c1State2 : EngineState := (simulateSpan c1State1 "span_a" 1 (.ok demoDiff)).1

/-- … a second `simulateSpan` on the same span (not a legal transition in
the documented state machine). -/
def c1Sim2 : EngineState × Except String SpanDiff :=
  simulateSpan c1State2 "span_a" 2 (.ok demoDiff)

/-- … then `executeSpan` after the double simulate. -/
def c1Exec : EngineState × Except String Json :=
  executeSpan c1Sim2.1 "span_a" 3 (.ok (Json.str "done"))

/-- Engine holding a `completed` span, reached by
create → simulate → execute. -/
def completedState : EngineState :=
  (executeSpan (simulateSpan (createSpan {} "span_b" .write demoOp none 0).1
    "span_b" 1 (.ok demoDiff)).1 "span_b" 2 (.ok Json.null)).1

/-- `simulateSpan` invoked on the `completed` span. -/
def c3Result : EngineState × Except String SpanDiff :=
  simulateSpan completedState "span_b" 3 (.ok demoDiff)

/-- Engine holding a reversible `completed` span, reached by
create → simulate → execute with a rollback-carrying binding. -/
def completedRevState : EngineState :=
  (executeSpan (simulateSpan (createSpan {} "span_c" .write demoOpRb none 0).1
    "span_c" 1 (.ok demoDiff)).1 "span_c" 2 (.ok Json.null)).1

/-- Engine holding one non-reversible `write` span in `pending`. -/
def writeSpanState : EngineState :=
  (createSpan {} "span_w" .write demoOp none 0).1

/-- The span context stored in `writeSpanState`. -/
def writeSpan : SpanContext :=
  { id := "span_w", type := .write, status := .pending, startTime := 0,
    reversible := false }

/-- A `read` span whose argument payload contains an email address. -/
def piiSpan : SpanContext :=
  { id := "span_pii", type := .read, status := .pending, startTime := 0,
    reversible := true,
    args := some (Json.obj [("email", Json.str "john.doe@example.com")]) }

/-- Engine state holding `piiSpan`. -/
def piiEng : EngineState :=
  { spans := [("span_pii", piiSpan)], operations := [("span_pii", demoOpRb)],
    timeline := [] }

/-- A policy whose single rule allows `read` spans, to exercise that an
`allow` match cannot override the PII gate. -/
def allowReadPolicy : SecurityPolicy :=
  { id := "allow-read", name := "Allow Read Operations",
    description := "Allow read spans",
    rules := [{ id := "rule-allow", type := .allow,
                condition := { spanType := some ["read"] },
                action := "allow_access", priority := 1 }],
    enabled := true, created := 0, lastModified := 0 }

/-- Governance state with the default policies plus `allowReadPolicy` and
no stored approvals (hence no approved PII contract). -/
def piiGov : GovState :=
  { policies := defaultPolicies 0 ++ [("allow-read", allowReadPolicy)],
    approvals := [] }

/-- A fixed risk assessment carried by the concrete approvals below. -/
def demoRisk : RiskAssessment :=
  { level := .critical,
    factors := [RiskFactor.mk "data_modification" "Potential data modification"
      4 3],
    score := 37, mitigations := [] }

/-- A pending approval with the three `critical`-level approvers. -/
def quorumApproval : GovernanceApproval :=
  { id := "appr_1", spanId := "span_w", requestedBy := "user_default",
    requestedAt := 0,
    approvers := [⟨"approver_1", .pending, none, none⟩,
                  ⟨"approver_2", .pending, none, none⟩,
                  ⟨"security_admin", .pending, none, none⟩],
    status := .pending, riskAssessment := demoRisk, expiresAt := 86400000 }

/-- Governance state holding `quorumApproval`. -/
def quorumGov : GovState :=
  { policies := [], approvals := [("appr_1", quorumApproval)] }

/-- Unwrap an `Except` with a fallback, to chain concrete workflows. -/
def exceptD (d : α) : Except String α → α
  | .ok a => a
  | .error _ => d

/-- `quorumGov` after the first approver approves. -/
def quorumGov1 : GovState :=
  exceptD quorumGov (approveSpan quorumGov "appr_1" "approver_1" none 10)

/-- … after the second approver approves. -/
def quorumGov2 : GovState :=
  exceptD quorumGov (approveSpan quorumGov1 "appr_1" "approver_2" none 20)

/-- … after the third approver rejects. -/
def quorumGov3 : GovState :=
  exceptD quorumGov (rejectSpan quorumGov2 "appr_1" "security_admin" none 30)

/-- An approval that has already been fully approved (not `pending`). -/
def settledApproval : GovernanceApproval :=
  { id := "appr_2", spanId := "span_w", requestedBy := "user_default",
    requestedAt := 0,
    approvers := [⟨"approver_1", .approved, some 1, none⟩],
    status := .approved, riskAssessment := demoRisk, expiresAt := 86400000 }

/-- Governance state holding `settledApproval`. -/
def settledGov : GovState :=
  { policies := [], approvals := [("appr_2", settledApproval)] }

/-- `settledGov` after a `rejectSpan` on the already-approved approval. -/
def settledGovAfterReject : GovState :=
  exceptD settledGov (rejectSpan settledGov "appr_2" "approver_1" none 5)

/-- An older metric sample. -/
def metricA : PerformanceMetric :=
  { id := "metric_1", timestamp := 1, metric := "cpu_usage", value := 50,
    unit := "percent", source := "system" }

/-- A newer metric sample. -/
def metricB : PerformanceMetric :=
  { id := "metric_2", timestamp := 2, metric := "cpu_usage", value := 60,
    unit := "percent", source := "system" }

/-- A metrics query asking for at most one result. -/
def limitOneQuery : MetricsQuery := { limit := some 1 }

/-- A timeline event used to exercise `queryEvents`. -/
def demoEvent (i : Nat) : TimelineEvent :=
  { id := "event_" ++ toString i, timestamp := i, type := "span_created",
    source := "span_engine", severity := .info, message := "Span created" }

/-! ## General lemmas about the embedded primitives -/

theorem mapGet_mapSet_self (m : List (String × α)) (k : String) (v : α) :
    mapGet (mapSet m k v) k = some v := by
  induction m with
  | nil => simp [mapSet, mapGet]
  | cons h t ih =>
    obtain ⟨k2, v2⟩ := h
    by_cases hk : k2 = k <;> simp [mapSet, mapGet, hk, ih]

theorem getSpan_addTimelineEvent (st : EngineState) (a : String) (n : Nat)
    (e : String) (sid : String) :
    getSpan (addTimelineEvent st a n e) sid = getSpan st sid := rfl

theorem getSpan_setSpan_self (st : EngineState) (sid : String)
    (sp : SpanContext) : getSpan (setSpan st sid sp) sid = some sp :=
  mapGet_mapSet_self st.spans sid sp

/-! ## C1 — executing after an illegal call history -/

/-- C1: the claim states that `executeSpan` succeeds only when the span's
call history is exactly `createSpan` followed by one successful
`simulateSpan`.  The source's `simulateSpan` is missing the `pending`
status guard that the documented state machine requires (its siblings
`executeSpan` and `rollbackSpan` do have their guards), so a second
`simulateSpan` succeeds and re-arms the span: after the call history
create → simulate → simulate, `executeSpan` succeeds, contradicting the
claim.  This theorem evaluates the embedded code on that failing trace. -/
theorem executeSpan_succeeds_after_double_simulate :
    c1Sim2.2 = .ok demoDiff ∧
    c1Exec.2 = .ok (Json.str "done") ∧
    (getSpan c1Exec.1 "span_a").map SpanContext.status =
      some SpanStatus.completed := by decide

/-! ## C3 — `simulateSpan` has no `pending` guard -/

/-- C3: the claim states that `simulateSpan` on a span whose status is not
`pending` fails with an `InvalidState` error and leaves the span
unchanged.  The source performs no status check at all: on a `completed`
span the call succeeds, returns the diff, and moves the span to
`awaiting_approval`.  This theorem evaluates the embedded code on that
failing input. -/
theorem simulateSpan_ignores_status_guard :
    (getSpan completedState "span_b").map SpanContext.status =
      some SpanStatus.completed ∧
    c3Result.2 = .ok demoDiff ∧
    (getSpan c3Result.1 "span_b").map SpanContext.status =
      some SpanStatus.awaiting_approval := by decide

/-! ## C4 — rollback availability and failure semantics -/

/-- C4: `rollbackSpan` succeeds (moving the span to `rolled_back`) only if
the span is reversible — equivalently, by the `createSpan` invariant, a
rollback procedure was supplied — and its status is `completed`; a
non-reversible span fails with the NotReversible error, a reversible
non-completed span with the InvalidState error, and when the rollback
procedure itself fails the error is re-raised with the span left in
`completed`. -/
theorem rollbackSpan_spec (st : EngineState) (spanId : String) (now : Nat)
    (out : Except String Unit) (span : SpanContext) (op : SpanOperation)
    (hs : mapGet st.spans spanId = some span)
    (ho : mapGet st.operations spanId = some op)
    (hinv : span.reversible = op.hasRollback) :
    ((rollbackSpan st spanId now out).2.isOk = true →
        span.reversible = true ∧ span.status = .completed ∧ out = .ok ()) ∧
    (span.reversible = false →
        rollbackSpan st spanId now out =
          (st, .error ("Span " ++ spanId ++ " is not reversible"))) ∧
    (span.reversible = true → span.status ≠ .completed →
        rollbackSpan st spanId now out =
          (st, .error ("Span " ++ spanId ++
            " cannot be rolled back in current state"))) ∧
    (span.reversible = true → span.status = .completed →
        (rollbackSpan st spanId now (.ok ())).2 = .ok () ∧
        getSpan (rollbackSpan st spanId now (.ok ())).1 spanId =
          some { span with status := .rolled_back }) ∧
    (∀ e, span.reversible = true → span.status = .completed →
        (rollbackSpan st spanId now (.error e)).2 = .error e ∧
        getSpan (rollbackSpan st spanId now (.error e)).1 spanId =
          some span) := by
  refine ⟨?_, ?_, ?_, ?_, ?_⟩
  · intro hok
    by_cases hrev : span.reversible
    · by_cases hst : span.status = SpanStatus.completed
      · refine ⟨hrev, hst, ?_⟩
        cases out with
        | ok u => rfl
        | error e =>
          exfalso
          simp [rollbackSpan, hs, ho, hrev, ← hinv, hst, Except.isOk,
            Except.toBool] at hok
      · exfalso
        simp [rollbackSpan, hs, ho, hrev, ← hinv, hst, Except.isOk,
          Except.toBool] at hok
    · exfalso
      simp [rollbackSpan, hs, ho, hrev, Except.isOk, Except.toBool] at hok
  · intro hrev
    simp [rollbackSpan, hs, ho, hrev]
  · intro hrev hst
    simp [rollbackSpan, hs, ho, hrev, ← hinv, hst]
  · intro hrev hst
    constructor
    · simp [rollbackSpan, hs, ho, hrev, ← hinv, hst]
    · simp [rollbackSpan, hs, ho, hrev, ← hinv, hst, getSpan,
        addTimelineEvent, setSpan, mapGet_mapSet_self]
  · intro e hrev hst
    constructor
    · simp [rollbackSpan, hs, ho, hrev, ← hinv, hst]
    · simp [rollbackSpan, hs, ho, hrev, ← hinv, hst, getSpan,
        addTimelineEvent, hs]

/-- Witness for `rollbackSpan_spec` on the concrete reversible completed
span of `completedRevState`: a successful rollback moves it to
`rolled_back`, a failing rollback re-raises and leaves it `completed`. -/
theorem rollbackSpan_spec_witness :
    (rollbackSpan completedRevState "span_c" 3 (.ok ())).2 = .ok () ∧
    (getSpan (rollbackSpan completedRevState "span_c" 3 (.ok ())).1
      "span_c").map SpanContext.status = some SpanStatus.rolled_back ∧
    (rollbackSpan completedRevState "span_c" 3 (.error "boom")).2 =
      .error "boom" ∧
    (getSpan (rollbackSpan completedRevState "span_c" 3
      (.error "boom")).1 "span_c").map SpanContext.status =
      some SpanStatus.completed := by
  have h := rollbackSpan_spec completedRevState "span_c" 3 (.ok ())
    { id := "span_c", parentId := none, type := .write,
      status := .completed, startTime := 0, endTime := some 2,
      metadata := [], reversible := true, args := none }
    demoOpRb (by decide) (by decide) (by decide)
  obtain ⟨-, -, -, h4, h5⟩ := h
  obtain ⟨h4a, h4b⟩ := h4 rfl rfl
  obtain ⟨h5a, h5b⟩ := h5 "boom" rfl rfl
  exact ⟨h4a, by rw [h4b]; rfl, h5a, by rw [h5b]; rfl⟩

/-! ## C5 — risk assessment as a pure function of type and reversibility -/

/-- C5: for every existing span, `assessSpanRisk` is a pure function of
the pair (span type, reversibility): the score is the fixed per-type
weight (write 12, gui-automation 12, navigation 6, others 0) plus 25 when
not reversible, the level follows the fixed thresholds ≤10/≤20/≤35, and a
non-reversible `write` span always scores 37, `critical`. -/
theorem assessSpanRisk_spec (eng : EngineState) (spanId : String)
    (span : SpanContext) (h : getSpan eng spanId = some span) :
    assessSpanRiskOf eng spanId = .ok (assessSpanRisk span) ∧
    (assessSpanRisk span).score =
      specTypeWeight span.type + (if span.reversible then 0 else 25) ∧
    (assessSpanRisk span).level = specLevelOf (assessSpanRisk span).score ∧
    (∀ s2 : SpanContext, s2.type = span.type →
        s2.reversible = span.reversible →
        assessSpanRisk s2 = assessSpanRisk span) ∧
    (span.type = .write → span.reversible = false →
        (assessSpanRisk span).score = 37 ∧
        (assessSpanRisk span).level = .critical) := by
  refine ⟨by simp [assessSpanRiskOf, h], ?_, ?_, ?_, ?_⟩
  · cases hty : span.type <;> cases hrev : span.reversible <;>
      simp [assessSpanRisk, specTypeWeight, hty, hrev]
  · cases hty : span.type <;> cases hrev : span.reversible <;>
      simp [assessSpanRisk, specLevelOf, hty, hrev]
  · intro s2 hty hrev
    simp [assessSpanRisk, hty, hrev]
  · intro hty hrev
    simp [assessSpanRisk, hty, hrev]

/-- Witness for `assessSpanRisk_spec` on the concrete engine holding one
non-reversible `write` span: score 37, level `critical`. -/
theorem assessSpanRisk_spec_witness :
    assessSpanRiskOf writeSpanState "span_w" = .ok (assessSpanRisk writeSpan) ∧
    (assessSpanRisk writeSpan).score = 37 ∧
    (assessSpanRisk writeSpan).level = .critical := by
  have h := assessSpanRisk_spec writeSpanState "span_w" writeSpan (by decide)
  obtain ⟨h1, -, -, -, h5⟩ := h
  obtain ⟨h5a, h5b⟩ := h5 rfl rfl
  exact ⟨h1, h5a, h5b⟩

/-! ## C2 — the PII gate cannot be overridden -/

theorem applyRule_flags (p : SecurityPolicy) (s : SpanContext)
    (r : RiskAssessment) (acc : EvalResult) (rule : PolicyRule) :
    (applyRule p s r acc rule).piiDetected = acc.piiDetected ∧
    (applyRule p s r acc rule).contractRequired = acc.contractRequired ∧
    (acc.requiresApproval = true →
      (applyRule p s r acc rule).requiresApproval = true) := by
  by_cases h : ruleApplies rule s r = true
  · cases hrt : rule.type <;> simp [applyRule, h, hrt]
  · simp [applyRule, h]

theorem foldl_flags {β : Type} (f : EvalResult → β → EvalResult)
    (hf : ∀ acc b, (f acc b).piiDetected = acc.piiDetected ∧
      (f acc b).contractRequired = acc.contractRequired ∧
      (acc.requiresApproval = true → (f acc b).requiresApproval = true)) :
    ∀ (l : List β) (acc : EvalResult),
      (l.foldl f acc).piiDetected = acc.piiDetected ∧
      (l.foldl f acc).contractRequired = acc.contractRequired ∧
      (acc.requiresApproval = true →
        (l.foldl f acc).requiresApproval = true) := by
  intro l
  induction l with
  | nil => intro acc; exact ⟨rfl, rfl, fun h => h⟩
  | cons b t ih =>
    intro acc
    have h1 := hf acc b
    have h2 := ih (f acc b)
    exact ⟨h2.1.trans h1.1, h2.2.1.trans h1.2.1,
      fun h => h2.2.2 (h1.2.2 h)⟩

/-- C2: for every span whose serialized argument payload contains PII and
for which no approved PII-covering contract is stored,
`evaluateSpanAgainstPolicies` reports `piiDetected`, `contractRequired`
and `requiresApproval`, whatever the configured policies — in particular
no matching `allow` rule can clear these flags, since the rule switch only
acts on `deny` and `require_approval`. -/
theorem evaluate_pii_gate (gov : GovState) (eng : EngineState)
    (spanId : String) (span : SpanContext)
    (hs : getSpan eng spanId = some span)
    (hpii : (detectPII (Json.stringify (spanArgsJson span))).hasPII = true)
    (hc : hasApprovedPIIContract gov spanId = false) :
    ∃ res, evaluateSpanAgainstPolicies gov eng spanId = .ok res ∧
      res.piiDetected = true ∧ res.contractRequired = true ∧
      res.requiresApproval = true := by
  unfold evaluateSpanAgainstPolicies
  rw [hs]
  simp only [hpii, hc, Bool.not_false, Bool.and_true, if_pos]
  refine ⟨_, rfl, ?_⟩
  have hstep := foldl_flags
    (fun acc policy =>
      if !policy.enabled then acc
      else policy.rules.foldl (applyRule policy span (assessSpanRisk span))
        acc)
    (fun acc policy => ?inner) (mapValues gov.policies)
    { allowed := true, requiresApproval := true,
      violations :=
        ["PII detected - contract approval required before execution"],
      applicablePolicies := [], piiDetected := true,
      contractRequired := true }
  case inner =>
    by_cases hp : policy.enabled
    · simp only [hp, Bool.not_true, Bool.false_eq_true, if_neg,
        Bool.not_eq_true]
      exact foldl_flags _ (fun a r => applyRule_flags policy span
        (assessSpanRisk span) a r) policy.rules acc
    · simp only [hp]
      exact ⟨rfl, rfl, fun h => h⟩
  exact ⟨hstep.1, hstep.2.1, hstep.2.2 rfl⟩

/-- Witness for `evaluate_pii_gate` on the concrete engine holding a
`read` span whose payload contains an email address, against the default
policies extended with an `allow` rule matching `read` spans. -/
theorem evaluate_pii_gate_witness :
    (detectPII (Json.stringify (spanArgsJson piiSpan))).hasPII = true ∧
    ∃ res, evaluateSpanAgainstPolicies piiGov piiEng "span_pii" = .ok res ∧
      res.piiDetected = true ∧ res.contractRequired = true ∧
      res.requiresApproval = true :=
  ⟨by decide,
   evaluate_pii_gate piiGov piiEng "span_pii" piiSpan (by decide)
     (by decide) (by decide)⟩

/-! ## C6 — quorum approval and rejection veto -/

/-- C6: after a successful `approveSpan` the overall status is `approved`
exactly when every listed approver's status is `approved`; a successful
`rejectSpan` always leaves the overall status `rejected`, whatever the
other approvers' statuses; and on the concrete three-approver workflow,
two approvals followed by a rejection end in `rejected`. -/
theorem status_iff_of_pending (b : Bool) (st0 : OverallApproval)
    (h : st0 = .pending) :
    ((if b = true then OverallApproval.approved else st0) =
      OverallApproval.approved) ↔ b = true := by
  cases b <;> simp [h]

theorem approval_quorum :
    (∀ (gov : GovState) (aid uid : String) (c : Option String) (now : Nat)
        (gov2 : GovState) (ap2 : GovernanceApproval),
        approveSpan gov aid uid c now = .ok gov2 →
        mapGet gov2.approvals aid = some ap2 →
        (ap2.status = .approved ↔
          ap2.approvers.all
            (fun a => a.status = ApproverState.approved) = true)) ∧
    (∀ (gov : GovState) (aid uid : String) (c : Option String) (now : Nat)
        (gov2 : GovState) (ap2 : GovernanceApproval),
        rejectSpan gov aid uid c now = .ok gov2 →
        mapGet gov2.approvals aid = some ap2 →
        ap2.status = .rejected) ∧
    ((mapGet quorumGov2.approvals "appr_1").map GovernanceApproval.status =
        some .pending ∧
     (mapGet quorumGov3.approvals "appr_1").map GovernanceApproval.status =
        some .rejected) := by
  refine ⟨?_, ?_, by decide⟩
  · intro gov aid uid c now gov2 ap2 hok hget
    unfold approveSpan at hok
    split at hok
    · exact absurd hok (by simp)
    · split at hok
      · exact absurd hok (by simp)
      · split at hok
        · exact absurd hok (by simp)
        · rename_i hpend hx approver hf
          simp only [Except.ok.injEq] at hok
          subst hok
          rw [mapGet_mapSet_self] at hget
          injection hget with hget
          subst hget
          simp only [not_not] at hpend
          dsimp only
          exact status_iff_of_pending _ _ hpend
  · intro gov aid uid c now gov2 ap2 hok hget
    unfold rejectSpan at hok
    split at hok
    · exact absurd hok (by simp)
    · split at hok
      · exact absurd hok (by simp)
      · simp only [Except.ok.injEq] at hok
        subst hok
        rw [mapGet_mapSet_self] at hget
        injection hget with hget
        subst hget
        rfl

/-- Witness for `approval_quorum` on the concrete quorum workflow: after
the first approval the overall status is not yet `approved` (not all
approvers have approved), and the rejection leaves it `rejected`. -/
theorem approval_quorum_witness :
    ((exceptD quorumGov
        (approveSpan quorumGov "appr_1" "approver_1" none 10)).approvals ≠
          [] ∧
      ¬(quorumApproval.approvers.all
          (fun a => a.status = ApproverState.approved) = true)) ∧
    (∃ ap2, mapGet quorumGov1.approvals "appr_1" = some ap2 ∧
      (ap2.status = .approved ↔
        ap2.approvers.all
          (fun a => a.status = ApproverState.approved) = true)) ∧
    (∃ ap3, mapGet quorumGov3.approvals "appr_1" = some ap3 ∧
      ap3.status = .rejected) := by
  refine ⟨by decide, ?_, ?_⟩
  · refine ⟨⟨"appr_1", "span_w", "user_default", 0,
      [⟨"approver_1", .approved, some 10, none⟩,
       ⟨"approver_2", .pending, none, none⟩,
       ⟨"security_admin", .pending, none, none⟩],
      .pending, demoRisk, 86400000⟩, by decide, ?_⟩
    exact approval_quorum.1 quorumGov "appr_1" "approver_1" none 10
      quorumGov1 _ (by decide) (by decide)
  · refine ⟨⟨"appr_1", "span_w", "user_default", 0,
      [⟨"approver_1", .approved, some 10, none⟩,
       ⟨"approver_2", .approved, some 20, none⟩,
       ⟨"security_admin", .rejected, some 30, none⟩],
      .rejected, demoRisk, 86400000⟩, by decide, ?_⟩
    exact approval_quorum.2.1 quorumGov2 "appr_1" "security_admin" none 30
      quorumGov3 _ (by decide) (by decide)

/-! ## C7 — the missing state guard in `rejectSpan` -/

/-- C7 counterexample: the claim states that `rejectSpan` on a non-pending
approval fails with an `InvalidApprovalState` error and leaves the
approval unchanged.  On the concrete already-`approved` approval, a listed
approver's `rejectSpan` succeeds and overwrites the status to
`rejected`. -/
theorem rejectSpan_no_state_guard_cex :
    settledApproval.status = .approved ∧
    (rejectSpan settledGov "appr_2" "approver_1" none 5).isOk = true ∧
    (mapGet settledGovAfterReject.approvals "appr_2").map
      GovernanceApproval.status = some .rejected := by decide

/-- C7 (amended): `approveSpan` on a non-pending approval fails with the
`InvalidApprovalState` error ("Approval … is not pending"), leaving the
state untouched; `rejectSpan` performs no such check — called by a listed
approver it succeeds on any stored approval, pending or not, and
overwrites the overall status to `rejected`. -/
theorem approveSpan_state_guard (gov : GovState) (aid uid : String)
    (c : Option String) (now : Nat) (ap : GovernanceApproval)
    (hm : mapGet gov.approvals aid = some ap) :
    (ap.status ≠ .pending →
      approveSpan gov aid uid c now =
        .error ("Approval " ++ aid ++ " is not pending")) ∧
    (∀ apr, findApprover ap.approvers uid = some apr →
      ∃ gov2 ap2, rejectSpan gov aid uid c now = .ok gov2 ∧
        mapGet gov2.approvals aid = some ap2 ∧ ap2.status = .rejected) := by
  constructor
  · intro hnp
    unfold approveSpan
    simp only [hm, hnp, ne_eq, not_false_eq_true, if_pos]
  · intro apr hf
    unfold rejectSpan
    simp only [hm, hf]
    exact ⟨_, _, rfl, mapGet_mapSet_self _ _ _, rfl⟩

/-- Witness for `approveSpan_state_guard` on the concrete already-approved
approval: `approveSpan` fails with the not-pending error while
`rejectSpan` succeeds and rejects. -/
theorem approveSpan_state_guard_witness :
    approveSpan settledGov "appr_2" "approver_1" none 5 =
      .error "Approval appr_2 is not pending" ∧
    (∃ gov2 ap2,
      rejectSpan settledGov "appr_2" "approver_1" none 5 = .ok gov2 ∧
        mapGet gov2.approvals "appr_2" = some ap2 ∧
        ap2.status = .rejected) := by
  have h := approveSpan_state_guard settledGov "appr_2" "approver_1" none 5
    settledApproval (by decide)
  refine ⟨?_, h.2 ⟨"approver_1", .approved, some 1, none⟩ (by decide)⟩
  have h1 := h.1 (by decide)
  rw [h1]
  rfl

/-! ## C9 / C10 — query ordering, pagination, defaults and retention -/

theorem mem_insertBy {le : α → α → Bool} (x : α) :
    ∀ {l : List α} {y : α}, y ∈ insertBy le x l → y = x ∨ y ∈ l := by
  intro l
  induction l with
  | nil => intro y hy; simp [insertBy] at hy; exact Or.inl hy
  | cons z zs ih =>
    intro y hy
    by_cases h : le x z = true
    · simp only [insertBy, h, if_true] at hy
      rcases List.mem_cons.mp hy with h1 | h2
      · exact Or.inl h1
      · exact Or.inr h2
    · simp only [insertBy, h, if_false, Bool.false_eq_true] at hy
      rcases List.mem_cons.mp hy with h1 | h2
      · exact Or.inr (by simp [h1])
      · rcases ih h2 with h3 | h4
        · exact Or.inl h3
        · exact Or.inr (by simp [h4])

theorem pairwise_insertBy {le : α → α → Bool}
    (htot : ∀ a b, (le a b || le b a) = true)
    (htrans : ∀ a b c, le a b = true → le b c = true → le a c = true)
    (x : α) :
    ∀ {l : List α}, l.Pairwise (fun a b => le a b = true) →
      (insertBy le x l).Pairwise (fun a b => le a b = true) := by
  intro l
  induction l with
  | nil => intro _; simp [insertBy]
  | cons z zs ih =>
    intro hp
    obtain ⟨hz, hzs⟩ := List.pairwise_cons.mp hp
    by_cases h : le x z = true
    · simp only [insertBy, h, if_pos]
      refine List.pairwise_cons.mpr ⟨?_, hp⟩
      intro y hy
      rcases List.mem_cons.mp hy with h1 | h2
      · rw [h1]; exact h
      · exact htrans x z y h (hz y h2)
    · simp only [insertBy, h, if_neg, Bool.not_eq_true]
      refine List.pairwise_cons.mpr ⟨?_, ih hzs⟩
      intro y hy
      rcases mem_insertBy x hy with h1 | h2
      · rw [h1]
        have := htot x z
        cases hxz : le x z with
        | true => exact absurd hxz h
        | false => rw [hxz] at this; simpa using this
      · exact hz y h2

theorem pairwise_sortBy {le : α → α → Bool}
    (htot : ∀ a b, (le a b || le b a) = true)
    (htrans : ∀ a b c, le a b = true → le b c = true → le a c = true) :
    ∀ l : List α, (sortBy le l).Pairwise (fun a b => le a b = true) := by
  intro l
  induction l with
  | nil => simp [sortBy]
  | cons x xs ih => exact pairwise_insertBy htot htrans x ih

theorem length_insertBy {le : α → α → Bool} (x : α) :
    ∀ l : List α, (insertBy le x l).length = l.length + 1 := by
  intro l
  induction l with
  | nil => rfl
  | cons z zs ih =>
    by_cases h : le x z = true <;> simp [insertBy, h, ih]

theorem length_sortBy {le : α → α → Bool} :
    ∀ l : List α, (sortBy le l).length = l.length := by
  intro l
  induction l with
  | nil => rfl
  | cons x xs ih => simp [sortBy, length_insertBy, ih]

/-- C9 counterexample: the claim states that `queryMetrics`, like
`queryEvents`, applies offset/limit pagination to the filtered result.  On
a store of two metrics and a query with `limit 1`, `queryMetrics` returns
both metrics: the source never reads pagination fields. -/
theorem queryMetrics_ignores_limit_cex :
    limitOneQuery.limit = some 1 ∧
    (queryMetrics [metricA, metricB] limitOneQuery).length = 2 ∧
    ¬((queryMetrics [metricA, metricB] limitOneQuery).length ≤ 1) := by
  decide

/-- C9 (amended): `queryEvents` and `queryMetrics` both return their
results sorted newest-first (non-increasing timestamps); `queryEvents`
applies offset/limit pagination to the sorted filtered result, while
`queryMetrics` returns the entire sorted filtered result — its length
always equals the filtered list's length, so no pagination takes place. -/
theorem query_ordering :
    (∀ (events : List TimelineEvent) (q : TimelineQuery),
        (queryEvents events q).Pairwise
          (fun a b => b.timestamp ≤ a.timestamp) ∧
        queryEvents events q =
          ((sortBy newestFirst (filterEvents q events)).drop
            (jsOffset q)).take (jsLimit q) ∧
        (queryEvents events q).length ≤ jsLimit q) ∧
    (∀ (metrics : List PerformanceMetric) (q : MetricsQuery),
        (queryMetrics metrics q).Pairwise
          (fun a b => b.timestamp ≤ a.timestamp) ∧
        (queryMetrics metrics q).length =
          (filterMetrics q metrics).length) := by
  constructor
  · intro events q
    refine ⟨?_, rfl, ?_⟩
    · have hs := @pairwise_sortBy _ newestFirst
        (fun a b => by simp [newestFirst]; omega)
        (fun a b c h1 h2 => by
          simp only [newestFirst, decide_eq_true_eq] at h1 h2 ⊢; omega)
        (filterEvents q events)
      have hsub : List.Sublist (queryEvents events q)
          (sortBy newestFirst (filterEvents q events)) :=
        (List.take_sublist _ _).trans (List.drop_sublist _ _)
      exact (hs.sublist hsub).imp (fun h => of_decide_eq_true h)
    · simp only [queryEvents]
      rw [List.length_take]
      omega
  · intro metrics q
    constructor
    · have hs := @pairwise_sortBy _ newestFirstM
        (fun a b => by simp [newestFirstM]; omega)
        (fun a b c h1 h2 => by
          simp only [newestFirstM, decide_eq_true_eq] at h1 h2 ⊢; omega)
        (filterMetrics q metrics)
      exact hs.imp (fun h => of_decide_eq_true h)
    · exact length_sortBy _

/-- C10: a `queryEvents` call whose filter specifies no limit returns at
most 100 events (default limit 100; with no offset either, it returns
exactly the first 100 of the sorted filtered result), while the event
store itself retains up to 1000 events: `logEvent` keeps
`min (n + 1) 1000` of them. -/
theorem queryEvents_default_limit :
    (∀ (events : List TimelineEvent) (q : TimelineQuery),
        q.limit = none → (queryEvents events q).length ≤ 100) ∧
    (∀ (events : List TimelineEvent) (q : TimelineQuery),
        q.limit = none → q.offset = none →
        queryEvents events q =
          (sortBy newestFirst (filterEvents q events)).take 100) ∧
    (∀ (events : List TimelineEvent) (e : TimelineEvent),
        (logEventStore events e).length = min (events.length + 1) 1000) := by
  refine ⟨?_, ?_, ?_⟩
  · intro events q h
    simp only [queryEvents, jsLimit, h]
    rw [List.length_take]
    omega
  · intro events q hl ho
    simp [queryEvents, jsLimit, jsOffset, hl, ho]
  · intro events e
    simp only [logEventStore, List.length_append, List.length_singleton]
    split
    · rename_i h
      simp only [List.length_drop, List.length_append, List.length_singleton]
      omega
    · rename_i h
      simp only [List.length_append, List.length_singleton]
      omega

/-- Witness for `queryEvents_default_limit` on a store of 150 events and
the empty query: exactly 100 events come back, and `logEventStore` on an
empty store retains the single event. -/
theorem queryEvents_default_limit_witness :
    (queryEvents ((List.range 150).map demoEvent) {}).length ≤ 100 ∧
    (logEventStore [] (demoEvent 0)).length = min 1 1000 :=
  ⟨queryEvents_default_limit.1 ((List.range 150).map demoEvent) {} rfl,
   by
    have h := queryEvents_default_limit.2.2 [] (demoEvent 0)
    simpa using h⟩

/-! ## C8 — PII confidence bounds and idempotence of masking

The development below proves that the confidence score stays within
`[0, 1]` and that running `detectPII` on a masked output detects nothing
and changes nothing.  The core is a preservation argument: any match
present after a global replace either sits inside one mask — impossible,
checked per mask — or consists purely of surviving characters, in which
case the same match already existed in the pre-replace string at a
position where the scanner had just failed. -/

theorem prevWAfter_nil (pw : Bool) : prevWAfter pw [] = pw := rfl

theorem prevWAfter_cons (pw : Bool) (c : Char) (l : List Char) :
    prevWAfter pw (c :: l) = prevWAfter (wordChar c) l := by
  cases l with
  | nil => rfl
  | cons d t =>
    cases h : (d :: t).getLast? with
    | none => simp at h
    | some e =>
      simp [prevWAfter, List.getLast?_cons_cons, h]

theorem prevWAfter_append (pw : Bool) (a b : List Char) :
    prevWAfter pw (a ++ b) = prevWAfter (prevWAfter pw a) b := by
  induction a generalizing pw with
  | nil => rfl
  | cons c t ih => rw [List.cons_append, prevWAfter_cons, prevWAfter_cons, ih]

theorem prevWAfter_ne_nil {l : List Char} (h : l ≠ []) (pw pw2 : Bool) :
    prevWAfter pw l = prevWAfter pw2 l := by
  cases l with
  | nil => exact absurd rfl h
  | cons c t => rw [prevWAfter_cons, prevWAfter_cons]

theorem isWordHead_append (u v : List Char) :
    isWordHead (u ++ v) = isWordHeadD u (isWordHead v) := by
  cases u <;> rfl

theorem isWordHeadD_append (u v : List Char) (nw : Bool) :
    isWordHeadD (u ++ v) nw = isWordHeadD u (isWordHeadD v nw) := by
  cases u <;> rfl

theorem isWordHeadD_take_drop (s : List Char) (n : Nat) :
    isWordHeadD (s.take n) (isWordHead (s.drop n)) = isWordHead s := by
  cases s with
  | nil => simp [isWordHeadD, isWordHead]
  | cons c t =>
    cases n with
    | zero => rfl
    | succ m => rfl

theorem mem_take_leadRun (p : Char → Bool) :
    ∀ (s : List Char) (k : Nat), k ≤ leadRun p s →
      ∀ c ∈ s.take k, p c = true := by
  intro s
  induction s with
  | nil => intro k _ c hc; simp at hc
  | cons d t ih =>
    intro k hk c hc
    by_cases hd : p d = true
    · simp only [leadRun, hd, if_true] at hk
      cases k with
      | zero => simp at hc
      | succ m =>
        simp only [List.take_succ_cons, List.mem_cons] at hc
        rcases hc with h1 | h2
        · rw [h1]; exact hd
        · exact ih m (by omega) c h2
    · rw [Bool.not_eq_true] at hd
      simp only [leadRun, hd, Bool.false_eq_true, if_false] at hk
      have hk0 : k = 0 := by omega
      subst hk0
      simp at hc

theorem leadRun_ge (p : Char → Bool) :
    ∀ (taken rest : List Char), (∀ c ∈ taken, p c = true) →
      taken.length ≤ leadRun p (taken ++ rest) := by
  intro taken
  induction taken with
  | nil => intro rest _; simp
  | cons c t ih =>
    intro rest hall
    have hc : p c = true := hall c (by simp)
    simp only [List.cons_append, leadRun, hc, if_true, List.length_cons,
      List.append_eq]
    have := ih rest (fun d hd => hall d (by simp [hd]))
    simp only [List.append_eq] at this
    omega

theorem Sat2.minConsume_le {its : List RItem} {pw : Bool} {u : List Char}
    {nw : Bool} (h : Sat2 its pw u nw) : minConsume its ≤ u.length := by
  induction h with
  | nil => simp [minConsume]
  | wb _ _ _ _ _ _ ih => simpa [minConsume] using ih
  | lit _ _ _ _ _ _ ih => simp [minConsume]; omega
  | cls p lo hi its prevW taken rest nextW hlo _ _ _ ih =>
    simp only [minConsume, List.length_append]
    omega

theorem Sat2.no_star {its : List RItem} {pw : Bool} {u : List Char}
    {nw : Bool} (hp : ∀ it ∈ its, itemNoStarB it = true)
    (h : Sat2 its pw u nw) : '*' ∉ u := by
  induction h with
  | nil => simp
  | wb its _ _ _ _ _ ih =>
    exact ih (fun it hit => hp it (by simp [hit]))
  | lit c its _ rest _ _ ih =>
    have hc : itemNoStarB (.lit c) = true := hp _ (by simp)
    simp only [itemNoStarB, decide_eq_true_eq] at hc
    intro hmem
    rcases List.mem_cons.mp hmem with h1 | h2
    · exact hc h1.symm
    · exact ih (fun it hit => hp it (by simp [hit])) h2
  | cls p lo hi its _ taken rest _ _ _ hall _ ih =>
    have hc : itemNoStarB (.cls p lo hi) = true := hp _ (by simp)
    simp only [itemNoStarB, Bool.not_eq_true'] at hc
    intro hmem
    rcases List.mem_append.mp hmem with h1 | h2
    · have := hall _ h1
      rw [hc] at this
      exact Bool.false_ne_true this
    · exact ih (fun it hit => hp it (by simp [hit])) h2

theorem Sat2.append_split :
    ∀ {its1 its2 : List RItem} {pw : Bool} {u : List Char} {nw : Bool},
      Sat2 (its1 ++ its2) pw u nw →
      ∃ u1 u2, u = u1 ++ u2 ∧ Sat2 its1 pw u1 (isWordHeadD u2 nw) ∧
        Sat2 its2 (prevWAfter pw u1) u2 nw := by
  intro its1
  induction its1 with
  | nil =>
    intro its2 pw u nw h
    exact ⟨[], u, rfl, Sat2.nil pw (isWordHeadD u nw), h⟩
  | cons it its1 ih =>
    intro its2 pw u nw h
    cases it with
    | wb =>
      cases h with
      | wb _ _ _ _ hb htail =>
        obtain ⟨u1, u2, rfl, h1, h2⟩ := ih htail
        refine ⟨u1, u2, rfl, Sat2.wb _ _ _ _ ?_ h1, h2⟩
        rw [← isWordHeadD_append]
        exact hb
    | lit c =>
      cases h with
      | lit _ _ _ rest _ htail =>
        obtain ⟨r1, r2, rfl, h1, h2⟩ := ih htail
        refine ⟨c :: r1, r2, rfl, Sat2.lit _ _ _ _ _ h1, ?_⟩
        rw [prevWAfter_cons]
        exact h2
    | cls p lo hi =>
      cases h with
      | cls _ _ _ _ _ taken rest _ hlo hhi hall htail =>
        obtain ⟨r1, r2, hrest, h1, h2⟩ := ih htail
        refine ⟨taken ++ r1, r2, by rw [hrest, List.append_assoc],
          Sat2.cls _ _ _ _ _ _ _ _ hlo hhi hall h1, ?_⟩
        rw [prevWAfter_append]
        exact h2

theorem Sat2.trailing_wb {its front : List RItem} {pw : Bool}
    {u : List Char} {nw : Bool} (hsh : its = front ++ [.wb])
    (h : Sat2 its pw u nw) : prevWAfter pw u ≠ nw := by
  subst hsh
  obtain ⟨u1, u2, rfl, h1, h2⟩ := Sat2.append_split h
  cases h2 with
  | wb _ _ _ _ hb htail =>
    cases htail with
    | nil =>
      simp only [isWordHeadD] at hb
      simpa [prevWAfter_append] using hb

theorem Sat2.leading_wb {its : List RItem} {pw : Bool} {u : List Char}
    {nw : Bool} (h : Sat2 (.wb :: its) pw u nw) :
    pw ≠ isWordHeadD u nw := by
  cases h with
  | wb _ _ _ _ hb _ => exact hb

theorem Sat2.shift_context {p : Char → Bool} {lo : Nat} {hi : Option Nat}
    {rest : List RItem} {pw pw2 : Bool} {u : List Char} {nw : Bool}
    (hlo : 1 ≤ lo) (h : Sat2 (.wb :: .cls p lo hi :: rest) pw u nw)
    (hb2 : pw2 ≠ isWordHeadD u nw) :
    Sat2 (.wb :: .cls p lo hi :: rest) pw2 u nw := by
  cases h with
  | wb _ _ _ _ hb htail =>
    cases htail with
    | cls _ _ _ _ _ taken rest2 _ hlo2 hhi hall htail2 =>
      have htk : taken ≠ [] := by
        intro hemp
        rw [hemp] at hlo2
        simp at hlo2
        omega
      refine Sat2.wb _ _ _ _ hb2 (Sat2.cls _ _ _ _ _ _ _ _ hlo2 hhi hall ?_)
      rw [prevWAfter_ne_nil htk pw2 pw]
      exact htail2

theorem leadRun_le_length (p : Char → Bool) :
    ∀ s : List Char, leadRun p s ≤ s.length := by
  intro s
  induction s with
  | nil => simp [leadRun]
  | cons c t ih =>
    by_cases h : p c = true
    · simp only [leadRun, h, if_true, List.length_cons]; omega
    · rw [Bool.not_eq_true] at h
      simp only [leadRun, h, Bool.false_eq_true, if_false]
      omega

theorem tryCls2_sound (cont : Bool → List Char → Bool) (pw : Bool)
    (u : List Char) (lo : Nat) :
    ∀ k, tryCls2 cont pw u lo k = true →
      ∃ k2, k2 ≤ k ∧ lo ≤ k2 ∧
        cont (prevWAfter pw (u.take k2)) (u.drop k2) = true := by
  intro k
  induction k with
  | zero =>
    intro h
    unfold tryCls2 at h
    by_cases h1 : 0 < lo
    · simp [h1] at h
    · by_cases h2 : cont (prevWAfter pw (u.take 0)) (u.drop 0) = true
      · exact ⟨0, le_rfl, by omega, h2⟩
      · rw [Bool.not_eq_true] at h2
        simp only [List.take_zero, List.drop_zero] at h2
        simp [h1, h2] at h
  | succ k ih =>
    intro h
    unfold tryCls2 at h
    by_cases h1 : k + 1 < lo
    · simp [h1] at h
    · by_cases h2 : cont (prevWAfter pw (u.take (k + 1)))
        (u.drop (k + 1)) = true
      · exact ⟨k + 1, le_rfl, by omega, h2⟩
      · simp only [h1, if_false, h2, if_neg, Bool.false_eq_true,
          not_false_eq_true, reduceIte] at h
        obtain ⟨k2, hk2, hlo, hc⟩ := ih h
        exact ⟨k2, by omega, hlo, hc⟩

theorem tryCls2_complete (cont : Bool → List Char → Bool) (pw : Bool)
    (u : List Char) (lo : Nat) :
    ∀ k k2, k2 ≤ k → lo ≤ k2 →
      cont (prevWAfter pw (u.take k2)) (u.drop k2) = true →
      tryCls2 cont pw u lo k = true := by
  intro k
  induction k with
  | zero =>
    intro k2 hk hlo hc
    have hk0 : k2 = 0 := by omega
    subst hk0
    unfold tryCls2
    simp only [List.take_zero, List.drop_zero] at hc
    simp [show ¬(0 < lo) by omega, hc]
  | succ k ih =>
    intro k2 hk hlo hc
    unfold tryCls2
    have h1 : ¬(k + 1 < lo) := by omega
    by_cases h2 : cont (prevWAfter pw (u.take (k + 1)))
        (u.drop (k + 1)) = true
    · simp [h1, h2]
    · have hne : k2 ≠ k + 1 := by
        intro he
        rw [he] at hc
        exact h2 hc
      simp only [h1, if_false, not_false_eq_true, reduceIte]
      rw [if_neg (by simp [h2])]
      exact ih k2 (by omega) hlo hc

theorem sat2CheckAux_sound :
    ∀ (its : List RItem) (pw : Bool) (u : List Char) (nw : Bool),
      sat2CheckAux its pw u nw = true → Sat2 its pw u nw := by
  intro its
  induction its with
  | nil =>
    intro pw u nw h
    simp only [sat2CheckAux, List.isEmpty_iff] at h
    subst h
    exact Sat2.nil pw nw
  | cons it its ih =>
    intro pw u nw h
    cases it with
    | wb =>
      simp only [sat2CheckAux, Bool.and_eq_true, bne_iff_ne] at h
      exact Sat2.wb _ _ _ _ h.1 (ih pw u nw h.2)
    | lit c =>
      cases u with
      | nil => simp [sat2CheckAux] at h
      | cons d rest =>
        simp only [sat2CheckAux, Bool.and_eq_true, decide_eq_true_eq] at h
        obtain ⟨rfl, h2⟩ := h
        exact Sat2.lit _ _ _ _ _ (ih _ _ _ h2)
    | cls p lo hi =>
      simp only [sat2CheckAux] at h
      obtain ⟨k2, hk2, hlo, hc⟩ := tryCls2_sound _ _ _ _ _ h
      have hrun : k2 ≤ leadRun p u := by
        cases hi with
        | none => simpa using hk2
        | some hb => simp at hk2; omega
      have hsat := ih _ _ _ hc
      have hsplit := (List.take_append_drop k2 u).symm
      rw [hsplit]
      have hlen : (u.take k2).length = k2 := by
        rw [List.length_take]
        have := leadRun_le_length p u
        omega
      refine Sat2.cls _ _ _ _ _ _ _ _ ?_ ?_ ?_ hsat
      · omega
      · intro hb hhi
        subst hhi
        simp at hk2
        omega
      · exact mem_take_leadRun p u k2 hrun

theorem sat2CheckAux_complete {its : List RItem} {pw : Bool}
    {u : List Char} {nw : Bool} (h : Sat2 its pw u nw) :
    sat2CheckAux its pw u nw = true := by
  induction h with
  | nil => simp [sat2CheckAux]
  | wb _ _ _ _ hb _ ih =>
    simp [sat2CheckAux, ih, bne_iff_ne, hb]
  | lit c _ _ rest _ _ ih =>
    simp [sat2CheckAux, ih]
  | cls p lo hi its prevW taken rest nextW hlo hhi hall _ ih =>
    simp only [sat2CheckAux]
    have hge := leadRun_ge p taken rest hall
    refine tryCls2_complete _ _ _ _ _ taken.length ?_ hlo ?_
    · cases hi with
      | none => simpa using hge
      | some hb =>
        have := hhi hb rfl
        simp
        omega
    · rw [List.take_left, List.drop_left]
      exact ih

theorem tryCls_zero (cont : Bool → List Char → Option Nat) (pw : Bool)
    (s : List Char) (lo : Nat) :
    tryCls cont pw s lo 0 =
      if 0 < lo then none
      else
        match cont (prevWAfter pw (s.take 0)) (s.drop 0) with
        | some m => some (0 + m)
        | none => none := by
  simp only [tryCls]

theorem tryCls_succ (cont : Bool → List Char → Option Nat) (pw : Bool)
    (s : List Char) (lo k : Nat) :
    tryCls cont pw s lo (k + 1) =
      if k + 1 < lo then none
      else
        match cont (prevWAfter pw (s.take (k + 1))) (s.drop (k + 1)) with
        | some m => some (k + 1 + m)
        | none => tryCls cont pw s lo k := by
  simp only [tryCls]

theorem tryCls_sound (cont : Bool → List Char → Option Nat) (pw : Bool)
    (s : List Char) (lo : Nat) :
    ∀ k r, tryCls cont pw s lo k = some r →
      ∃ k2 m, k2 ≤ k ∧ lo ≤ k2 ∧
        cont (prevWAfter pw (s.take k2)) (s.drop k2) = some m ∧
        r = k2 + m := by
  intro k
  induction k with
  | zero =>
    intro r h
    rw [tryCls_zero] at h
    by_cases h1 : 0 < lo
    · simp [h1] at h
    · cases hc : cont (prevWAfter pw (s.take 0)) (s.drop 0) with
      | none =>
        simp only [List.take_zero, List.drop_zero] at hc
        simp [h1, hc] at h
      | some m =>
        simp only [h1, if_false, hc, not_false_eq_true, reduceIte,
          Option.some.injEq] at h
        exact ⟨0, m, le_rfl, by omega, hc, h.symm⟩
  | succ k ih =>
    intro r h
    rw [tryCls_succ] at h
    by_cases h1 : k + 1 < lo
    · simp [h1] at h
    · cases hc : cont (prevWAfter pw (s.take (k + 1))) (s.drop (k + 1)) with
      | none =>
        simp only [h1, if_false, hc, not_false_eq_true, reduceIte] at h
        obtain ⟨k2, m, hk2, hlo, hc2, hr⟩ := ih r h
        exact ⟨k2, m, by omega, hlo, hc2, hr⟩
      | some m =>
        simp only [h1, if_false, hc, not_false_eq_true, reduceIte,
          Option.some.injEq] at h
        exact ⟨k + 1, m, le_rfl, by omega, hc, h.symm⟩

theorem tryCls_complete (cont : Bool → List Char → Option Nat) (pw : Bool)
    (s : List Char) (lo : Nat) :
    ∀ k k2 m, k2 ≤ k → lo ≤ k2 →
      cont (prevWAfter pw (s.take k2)) (s.drop k2) = some m →
      ∃ r, tryCls cont pw s lo k = some r := by
  intro k
  induction k with
  | zero =>
    intro k2 m hk hlo hc
    have hk0 : k2 = 0 := by omega
    subst hk0
    rw [tryCls_zero]
    simp only [show ¬(0 < lo) by omega, if_false, hc, not_false_eq_true,
      reduceIte]
    exact ⟨0 + m, rfl⟩
  | succ k ih =>
    intro k2 m hk hlo hc
    rw [tryCls_succ]
    have h1 : ¬(k + 1 < lo) := by omega
    cases hck : cont (prevWAfter pw (s.take (k + 1))) (s.drop (k + 1)) with
    | some m2 =>
      simp only [h1, if_false, hck, not_false_eq_true, reduceIte]
      exact ⟨k + 1 + m2, rfl⟩
    | none =>
      have hne : k2 ≠ k + 1 := by
        intro he
        rw [he, hck] at hc
        cases hc
      simp only [h1, if_false, hck, not_false_eq_true, reduceIte]
      exact ih k2 m (by omega) hlo hc

theorem matchItems_sound :
    ∀ (its : List RItem) (pw : Bool) (s : List Char) (n : Nat),
      matchItems its pw s = some n →
      n ≤ s.length ∧ Sat2 its pw (s.take n) (isWordHead (s.drop n)) := by
  intro its
  induction its with
  | nil =>
    intro pw s n h
    simp only [matchItems, Option.some.injEq] at h
    subst h
    exact ⟨by omega, by simpa using Sat2.nil pw (isWordHead s)⟩
  | cons it its ih =>
    intro pw s n h
    cases it with
    | wb =>
      simp only [matchItems] at h
      by_cases hb : pw ≠ isWordHead s
      · rw [if_pos hb] at h
        obtain ⟨hle, hsat⟩ := ih pw s n h
        refine ⟨hle, Sat2.wb _ _ _ _ ?_ hsat⟩
        rw [isWordHeadD_take_drop]
        exact hb
      · rw [if_neg hb] at h
        cases h
    | lit c =>
      cases s with
      | nil => simp [matchItems] at h
      | cons d rest =>
        simp only [matchItems] at h
        by_cases hd : d = c
        · rw [if_pos hd] at h
          cases hm : matchItems its (wordChar d) rest with
          | none => rw [hm] at h; cases h
          | some m =>
            rw [hm] at h
            simp at h
            subst h
            obtain ⟨hle, hsat⟩ := ih _ _ _ hm
            subst hd
            exact ⟨by simp; omega, Sat2.lit _ _ _ _ _ hsat⟩
        · rw [if_neg hd] at h
          cases h
    | cls p lo hi =>
      simp only [matchItems] at h
      obtain ⟨k2, m, hk2, hlo, hc, hr⟩ := tryCls_sound _ _ _ _ _ _ h
      subst hr
      have hrun : k2 ≤ leadRun p s := by
        cases hi with
        | none => simpa using hk2
        | some hb =>
          rw [show (match some hb with
            | none => leadRun p s
            | some h => min h (leadRun p s)) = min hb (leadRun p s) from rfl]
            at hk2
          omega
      have hlenr := leadRun_le_length p s
      obtain ⟨hle, hsat⟩ := ih _ _ _ hc
      have hlen : (s.take k2).length = k2 := by
        rw [List.length_take]; omega
      constructor
      · simp only [List.length_drop] at hle
        omega
      · rw [List.take_add, ← List.drop_drop]
        refine Sat2.cls _ _ _ _ _ _ _ _ ?_ ?_ ?_ hsat
        · omega
        · intro hb hhi
          subst hhi
          simp at hk2
          omega
        · exact mem_take_leadRun p s k2 hrun

theorem matchItems_complete {its : List RItem} {pw : Bool} {u : List Char}
    {nw : Bool} (h : Sat2 its pw u nw) :
    ∀ v, isWordHead v = nw → ∃ m, matchItems its pw (u ++ v) = some m := by
  induction h with
  | nil => intro v _; exact ⟨0, rfl⟩
  | wb its prevW u nextW hb _ ih =>
    intro v hv
    obtain ⟨m, hm⟩ := ih v hv
    refine ⟨m, ?_⟩
    simp only [matchItems]
    rw [if_pos, hm]
    rw [isWordHead_append, hv]
    exact hb
  | lit c its prevW rest nextW _ ih =>
    intro v hv
    obtain ⟨m, hm⟩ := ih v hv
    refine ⟨m + 1, ?_⟩
    simp [List.cons_append, matchItems, hm]
  | cls p lo hi its prevW taken rest nextW hlo hhi hall _ ih =>
    intro v hv
    obtain ⟨m, hm⟩ := ih v hv
    simp only [matchItems, List.append_assoc]
    have hge := leadRun_ge p taken (rest ++ v) hall
    have hcont : matchItems its
        (prevWAfter prevW ((taken ++ (rest ++ v)).take taken.length))
        ((taken ++ (rest ++ v)).drop taken.length) = some m := by
      rw [List.take_left, List.drop_left]
      exact hm
    refine tryCls_complete _ _ _ _ _ taken.length m ?_ hlo hcont
    cases hi with
    | none => simpa using hge
    | some hb =>
      have := hhi hb rfl
      simp
      omega

theorem noOcc_of_scan_zero (pat : List RItem) (hpos : 1 ≤ minConsume pat) :
    ∀ (fuel : Nat) (s : List Char) (pw : Bool), s.length ≤ fuel →
      scanCountF pat fuel pw s = 0 →
      ∀ s1 u s2, s = s1 ++ u ++ s2 →
        ¬Sat2 pat (prevWAfter pw s1) u (isWordHead s2) := by
  intro fuel
  induction fuel with
  | zero =>
    intro s pw hlen _ s1 u s2 hs hsat
    have hs0 : s = [] := List.length_eq_zero.mp (by omega)
    subst hs0
    have hu : u = [] := by
      have h2 := hs.symm
      simp only [List.append_eq_nil] at h2
      exact h2.1.2
    subst hu
    have hz2 := Sat2.minConsume_le hsat
    simp only [List.length_nil, Nat.le_zero] at hz2
    omega
  | succ fuel ih =>
    intro s pw hlen hz s1 u s2 hs hsat
    cases s with
    | nil =>
      have hu : u = [] := by
        have h2 := hs.symm
        simp only [List.append_eq_nil] at h2
        exact h2.1.2
      subst hu
      have hz2 := Sat2.minConsume_le hsat
      simp only [List.length_nil, Nat.le_zero] at hz2
      omega
    | cons c cs =>
      cases hm : matchItems pat pw (c :: cs) with
      | some n =>
        cases n with
        | zero =>
          have hsz := (matchItems_sound pat pw (c :: cs) 0 hm).2
          rw [List.take_zero] at hsz
          have hz2 := Sat2.minConsume_le hsz
          simp only [List.length_nil, Nat.le_zero] at hz2
          omega
        | succ n2 =>
          simp only [scanCountF, hm] at hz
          omega
      | none =>
        simp only [scanCountF, hm] at hz
        cases s1 with
        | nil =>
          simp only [List.nil_append] at hs
          obtain ⟨m, hm2⟩ := matchItems_complete hsat s2 rfl
          rw [prevWAfter_nil, ← hs] at hm2
          rw [hm2] at hm
          cases hm
        | cons d s1t =>
          simp only [List.cons_append, List.cons.injEq] at hs
          obtain ⟨rfl, hs2⟩ := hs
          have := ih cs (wordChar c) (by simp at hlen; omega) hz
            s1t u s2 hs2
          rw [prevWAfter_cons] at hsat
          exact this hsat

theorem scan_zero_of_noOcc (pat : List RItem) :
    ∀ (fuel : Nat) (s : List Char) (pw : Bool),
      (∀ s1 u s2, s = s1 ++ u ++ s2 →
        ¬Sat2 pat (prevWAfter pw s1) u (isWordHead s2)) →
      scanCountF pat fuel pw s = 0 := by
  intro fuel
  induction fuel with
  | zero => intro s pw _; rfl
  | succ fuel ih =>
    intro s pw hno
    cases s with
    | nil => rfl
    | cons c cs =>
      cases hm : matchItems pat pw (c :: cs) with
      | some n =>
        exfalso
        obtain ⟨hle, hsat⟩ := matchItems_sound pat pw (c :: cs) n hm
        exact hno [] ((c :: cs).take n) ((c :: cs).drop n)
          (by rw [List.nil_append, List.take_append_drop])
          (by rw [prevWAfter_nil]; exact hsat)
      | none =>
        rw [scanCountF, hm]
        exact ih cs (wordChar c) (fun s1 u s2 hs hsat =>
          hno (c :: s1) u s2 (by rw [hs]; rfl)
            (by rw [prevWAfter_cons]; exact hsat))

theorem joinChunks_map_keep (s : List Char) :
    joinChunks (s.map Chunk.keep) = s := by
  induction s with
  | nil => rfl
  | cons c cs ih => simp [joinChunks, ih]

theorem joinChunks_chunksF (pat : List RItem) :
    ∀ (fuel : Nat) (pw : Bool) (s : List Char),
      joinChunks (chunksF pat fuel pw s) = s := by
  intro fuel
  induction fuel with
  | zero => intro pw s; exact joinChunks_map_keep s
  | succ fuel ih =>
    intro pw s
    cases s with
    | nil => rfl
    | cons c cs =>
      cases hm : matchItems pat pw (c :: cs) with
      | some n =>
        cases n with
        | zero =>
          rw [chunksF, hm]
          simp [joinChunks, ih]
        | succ n2 =>
          rw [chunksF, hm]
          simp only [joinChunks, ih]
          exact List.take_append_drop _ _
      | none =>
        rw [chunksF, hm]
        simp [joinChunks, ih]


/-! Structural list lemmas used by the masking analysis. -/

theorem split3 {α : Type} :
    ∀ (x y z w : List α), x ++ y = z ++ w → x.length ≤ z.length →
      ∃ v, z = x ++ v ∧ y = v ++ w := by
  intro x
  induction x with
  | nil =>
    intro y z w h _
    exact ⟨z, rfl, h⟩
  | cons a xt ih =>
    intro y z w h hlen
    cases z with
    | nil => simp at hlen
    | cons b zt =>
      simp only [List.cons_append, List.cons.injEq] at h
      obtain ⟨rfl, h2⟩ := h
      simp only [List.length_cons] at hlen
      obtain ⟨v, hv1, hv2⟩ := ih y zt w h2 (by omega)
      refine ⟨v, ?_, hv2⟩
      rw [hv1, List.cons_append]

theorem getLast?_append_right {α : Type} :
    ∀ (a b : List α), b ≠ [] → (a ++ b).getLast? = b.getLast? := by
  intro a
  induction a with
  | nil => intro b _; rfl
  | cons x xt ih =>
    intro b hb
    have h2 : xt ++ b ≠ [] := by
      intro h
      exact hb (List.append_eq_nil.mp h).2
    rw [List.cons_append]
    cases hxb : xt ++ b with
    | nil => exact absurd hxb h2
    | cons y yt =>
      rw [List.getLast?_cons_cons, ← hxb, ih b hb]

theorem getLast?_some_mem {α : Type} :
    ∀ {l : List α} {a : α}, l.getLast? = some a → a ∈ l := by
  intro l
  induction l with
  | nil => intro a h; cases h
  | cons b t ih =>
    intro a h
    cases t with
    | nil =>
      have hb : a = b := by
        simp only [List.getLast?_singleton, Option.some.injEq] at h
        exact h.symm
      simp [hb]
    | cons c t2 =>
      rw [List.getLast?_cons_cons] at h
      exact List.mem_cons_of_mem b (ih h)

theorem star_mem_of_suffix {mask t1 v t3 : List Char} (hv : v ≠ [])
    (hm : mask = t1 ++ v) (hlast : mask = t3 ++ ['*']) : '*' ∈ v := by
  have h1 : mask.getLast? = v.getLast? := by
    rw [hm]
    exact getLast?_append_right t1 v hv
  have h2 : mask.getLast? = some '*' := by
    rw [hlast, getLast?_append_right t3 ['*'] (by simp)]
    rfl
  exact getLast?_some_mem (h1.symm.trans h2)

theorem prevWAfter_star_end (pw : Bool) (t3 : List Char) :
    prevWAfter pw (t3 ++ ['*']) = false := by
  rw [prevWAfter_append]
  rfl

theorem isWordHead_ne_nil_append (w2 rest : List Char) (h : w2 ≠ []) :
    isWordHead (w2 ++ rest) = isWordHead w2 := by
  cases w2 with
  | nil => exact absurd rfl h
  | cons a t => rfl

/-- If the masked output of a global replace starts with a `'*'`-free
nonempty block `u`, then `u` is literally a prefix of the source input, and
the wordness right after `u` in the source relates to the one in the
output: they are equal, or the output continues with a mask (non-word) and
the source continuation is non-word whenever `u` ends in a word character.
Needs the pattern to start with `\b`. -/
theorem chunks_prefix_transfer (p : List RItem)
    (hpLead : ∃ its, p = .wb :: its)
    (mask : List Char) (hmHead : ∃ t, mask = '*' :: t) :
    ∀ (fuel : Nat) (s : List Char) (pw : Bool) (u t2 : List Char),
      s.length ≤ fuel → u ≠ [] → '*' ∉ u →
      renderChunks mask (chunksF p fuel pw s) = u ++ t2 →
      ∃ s2, s = u ++ s2 ∧
        (isWordHead s2 = isWordHead t2 ∨
         (isWordHead t2 = false ∧
          (prevWAfter pw u = true → isWordHead s2 = false))) := by
  intro fuel
  induction fuel with
  | zero =>
    intro s pw u t2 hlen hne _ hr
    have hs0 : s = [] := List.length_eq_zero.mp (by omega)
    subst hs0
    simp only [chunksF, List.map_nil, renderChunks] at hr
    exact absurd (List.append_eq_nil.mp hr.symm).1 hne
  | succ fuel ih =>
    intro s pw u t2 hlen hne hstar hr
    cases s with
    | nil =>
      simp only [chunksF, renderChunks] at hr
      exact absurd (List.append_eq_nil.mp hr.symm).1 hne
    | cons c cs =>
      have hkeep :
          renderChunks mask (Chunk.keep c :: chunksF p fuel (wordChar c) cs)
              = u ++ t2 →
          ∃ s2, c :: cs = u ++ s2 ∧
            (isWordHead s2 = isWordHead t2 ∨
             (isWordHead t2 = false ∧
              (prevWAfter pw u = true → isWordHead s2 = false))) := by
        intro hr2
        simp only [renderChunks] at hr2
        cases u with
        | nil => exact absurd rfl hne
        | cons u0 ut =>
          rw [List.cons_append] at hr2
          injection hr2 with hc0 hr3
          subst hc0
          cases ut with
          | nil =>
            refine ⟨cs, rfl, ?_⟩
            simp only [List.nil_append] at hr3
            cases cs with
            | nil =>
              have hz : chunksF p fuel (wordChar c) [] = [] := by
                cases fuel with
                | zero => rfl
                | succ f2 => rfl
              rw [hz] at hr3
              simp only [renderChunks] at hr3
              rw [← hr3]
              exact Or.inl rfl
            | cons d ds =>
              cases fuel with
              | zero =>
                simp only [List.length_cons] at hlen
                omega
              | succ f2 =>
                cases hm2 : matchItems p (wordChar c) (d :: ds) with
                | some n2 =>
                  cases n2 with
                  | zero =>
                    simp only [chunksF, hm2, renderChunks] at hr3
                    rw [← hr3]
                    exact Or.inl rfl
                  | succ n3 =>
                    simp only [chunksF, hm2, renderChunks] at hr3
                    obtain ⟨tm, htm⟩ := hmHead
                    rw [htm, List.cons_append] at hr3
                    refine Or.inr ⟨?_, ?_⟩
                    · rw [← hr3]
                      simp only [isWordHead]
                      decide
                    · intro hcw
                      rw [prevWAfter_cons, prevWAfter_nil] at hcw
                      have hsnd :=
                        (matchItems_sound p (wordChar c) (d :: ds) (n3 + 1)
                          hm2).2
                      obtain ⟨its, hits⟩ := hpLead
                      rw [hits] at hsnd
                      have hb := Sat2.leading_wb hsnd
                      rw [List.take_succ_cons] at hb
                      simp only [isWordHeadD] at hb
                      have hwd : wordChar d = false := by
                        cases hwd2 : wordChar d
                        · rfl
                        · exact absurd (hcw.trans hwd2.symm) hb
                      exact hwd
                | none =>
                  simp only [chunksF, hm2, renderChunks] at hr3
                  rw [← hr3]
                  exact Or.inl rfl
          | cons u1 utt =>
            have hne2 : u1 :: utt ≠ ([] : List Char) := by simp
            have hstar2 : '*' ∉ u1 :: utt := fun hmem =>
              hstar (List.mem_cons_of_mem _ hmem)
            have hlen2 : cs.length ≤ fuel := by
              simp only [List.length_cons] at hlen
              omega
            obtain ⟨s2, hs2, hdisj⟩ :=
              ih cs (wordChar c) (u1 :: utt) t2 hlen2 hne2 hstar2 hr3
            refine ⟨s2, ?_, ?_⟩
            · simp [hs2]
            · rw [prevWAfter_cons]
              exact hdisj
      cases hm : matchItems p pw (c :: cs) with
      | some n =>
        cases n with
        | zero =>
          simp only [chunksF, hm] at hr
          exact hkeep hr
        | succ n2 =>
          simp only [chunksF, hm, renderChunks] at hr
          obtain ⟨tm, htm⟩ := hmHead
          rw [htm, List.cons_append] at hr
          cases u with
          | nil => exact absurd rfl hne
          | cons u0 ut =>
            rw [List.cons_append] at hr
            injection hr with h1 h2
            subst h1
            exact absurd (List.mem_cons_self _ _) hstar
      | none =>
        simp only [chunksF, hm] at hr
        exact hkeep hr


theorem chunksF_nil (pat : List RItem) (fuel : Nat) (pw : Bool) :
    chunksF pat fuel pw [] = [] := by
  cases fuel with
  | zero => rfl
  | succ f2 => rfl

/-- The first character of a non-empty masked output that is not `'*'` is
the first character of the remaining source input. -/
theorem renderChunks_head (p : List RItem) (mask : List Char)
    (hmHead : ∃ t, mask = '*' :: t) (fuel : Nat) (pw2 : Bool)
    (sb : List Char) (u0 : Char) (rest : List Char)
    (hr : renderChunks mask (chunksF p fuel pw2 sb) = u0 :: rest)
    (hstar : u0 ≠ '*') :
    isWordHead sb = wordChar u0 := by
  cases sb with
  | nil =>
    rw [chunksF_nil] at hr
    simp only [renderChunks] at hr
    simp at hr
  | cons d ds =>
    cases fuel with
    | zero =>
      simp only [chunksF, List.map_cons, renderChunks] at hr
      injection hr with h1 _
      simp only [isWordHead]
      rw [h1]
    | succ f2 =>
      cases hm2 : matchItems p pw2 (d :: ds) with
      | some n =>
        cases n with
        | zero =>
          simp only [chunksF, hm2, renderChunks] at hr
          injection hr with h1 _
          simp only [isWordHead]
          rw [h1]
        | succ n3 =>
          simp only [chunksF, hm2, renderChunks] at hr
          obtain ⟨tm, htm⟩ := hmHead
          rw [htm, List.cons_append] at hr
          injection hr with h1 _
          exact absurd h1.symm hstar
      | none =>
        simp only [chunksF, hm2, renderChunks] at hr
        injection hr with h1 _
        simp only [isWordHead]
        rw [h1]

/-- Preservation: any match of a well-shaped pattern `q` inside the masked
output of a global replace of `p` maps back to a match of `q` in the
source, at a position where the scan of `p` did not start a replacement.
Needs `p` to start and end with `\b`, `q` to start and end with `\b`,
consume at least one character and admit no `'*'`, and the mask to start
and end with `'*'` and have a clean interior for `q`. -/
theorem chunks_preserve_occ (p q : List RItem)
    (hpLead : ∃ its, p = .wb :: its)
    (hpTrail : ∃ front, p = front ++ [.wb])
    (hqLead : ∃ its, q = .wb :: its)
    (hqTrail : ∃ front, q = front ++ [.wb])
    (hqPos : 1 ≤ minConsume q)
    (hqStar : ∀ it ∈ q, itemNoStarB it = true)
    (mask : List Char)
    (hmHead : ∃ t, mask = '*' :: t)
    (hmLast : ∃ t, mask = t ++ ['*'])
    (hmClean : MaskClean q mask) :
    ∀ (fuel : Nat) (s : List Char) (pw : Bool) (t1 u t2 : List Char),
      s.length ≤ fuel →
      renderChunks mask (chunksF p fuel pw s) = t1 ++ u ++ t2 →
      Sat2 q (prevWAfter pw t1) u (isWordHead t2) →
      ∃ s1 s2, s = s1 ++ u ++ s2 ∧
        Sat2 q (prevWAfter pw s1) u (isWordHead s2) ∧
        (matchItems p (prevWAfter pw s1) (u ++ s2) = none ∨
         matchItems p (prevWAfter pw s1) (u ++ s2) = some 0) := by
  intro fuel
  induction fuel with
  | zero =>
    intro s pw t1 u t2 hlen hr hsat
    have hs0 : s = [] := List.length_eq_zero.mp (by omega)
    subst hs0
    simp only [chunksF, List.map_nil, renderChunks] at hr
    have hu : u = [] := (List.append_eq_nil.mp (List.append_eq_nil.mp hr.symm).1).2
    have hmin := Sat2.minConsume_le hsat
    rw [hu] at hmin
    simp at hmin
    omega
  | succ fuel ih =>
    intro s pw t1 u t2 hlen hr hsat
    have hune : u ≠ [] := by
      intro h
      have hmin := Sat2.minConsume_le hsat
      rw [h] at hmin
      simp at hmin
      omega
    have hustar : '*' ∉ u := Sat2.no_star hqStar hsat
    cases s with
    | nil =>
      simp only [chunksF, renderChunks] at hr
      exact absurd (List.append_eq_nil.mp (List.append_eq_nil.mp hr.symm).1).2 hune
    | cons c cs =>
      have hkeep :
          (matchItems p pw (c :: cs) = none ∨
            matchItems p pw (c :: cs) = some 0) →
          renderChunks mask (Chunk.keep c :: chunksF p fuel (wordChar c) cs)
              = t1 ++ u ++ t2 →
          ∃ s1 s2, c :: cs = s1 ++ u ++ s2 ∧
            Sat2 q (prevWAfter pw s1) u (isWordHead s2) ∧
            (matchItems p (prevWAfter pw s1) (u ++ s2) = none ∨
             matchItems p (prevWAfter pw s1) (u ++ s2) = some 0) := by
        intro hmOr hr2
        cases t1 with
        | nil =>
          simp only [List.nil_append] at hr2
          rw [prevWAfter_nil] at hsat
          have hrfull :
              renderChunks mask (chunksF p (fuel + 1) pw (c :: cs))
                = u ++ t2 := by
            rcases hmOr with hm0 | hm0 <;>
              simp only [chunksF, hm0, renderChunks] <;>
              simpa [renderChunks] using hr2
          obtain ⟨s2c, hs2c, hdisj⟩ :=
            chunks_prefix_transfer p hpLead mask hmHead (fuel + 1) (c :: cs)
              pw u t2 hlen hune hustar hrfull
          obtain ⟨qfront, hqf⟩ := hqTrail
          have htr := Sat2.trailing_wb hqf hsat
          have hsat2 : Sat2 q pw u (isWordHead s2c) := by
            rcases hdisj with heq | ⟨ht2f, himp⟩
            · rw [heq]
              exact hsat
            · rw [ht2f] at htr
              have hpu : prevWAfter pw u = true := by
                cases hx : prevWAfter pw u
                · exact absurd hx htr
                · rfl
              rw [himp hpu, ← ht2f]
              exact hsat
          refine ⟨[], s2c, by simp [hs2c], ?_, ?_⟩
          · rw [prevWAfter_nil]
            exact hsat2
          · rw [prevWAfter_nil, ← hs2c]
            exact hmOr
        | cons d t1t =>
          simp only [renderChunks] at hr2
          rw [List.cons_append, List.cons_append] at hr2
          injection hr2 with hc0 hr3
          subst hc0
          rw [prevWAfter_cons] at hsat
          have hlen2 : cs.length ≤ fuel := by
            simp only [List.length_cons] at hlen
            omega
          obtain ⟨s1b, s2b, hsplit, hsatb, hfail⟩ :=
            ih cs (wordChar c) t1t u t2 hlen2 hr3 hsat
          refine ⟨c :: s1b, s2b, ?_, ?_, ?_⟩
          · simp [hsplit]
          · rw [prevWAfter_cons]
            exact hsatb
          · rw [prevWAfter_cons]
            exact hfail
      cases hm : matchItems p pw (c :: cs) with
      | none =>
        simp only [chunksF, hm] at hr
        exact hkeep (Or.inl hm) hr
      | some n =>
        cases n with
        | zero =>
          simp only [chunksF, hm] at hr
          exact hkeep (Or.inr hm) hr
        | succ n2 =>
          simp only [chunksF, hm, renderChunks] at hr
          rw [List.append_assoc] at hr
          rcases Nat.lt_or_ge t1.length mask.length with hlt | hge
          · obtain ⟨v, hv1, hv2⟩ :=
              split3 t1 (u ++ t2) mask _ hr.symm (Nat.le_of_lt hlt)
            have hvne : v ≠ [] := by
              intro h
              rw [h, List.append_nil] at hv1
              rw [hv1] at hlt
              omega
            obtain ⟨tm3, htm3⟩ := hmLast
            rcases Nat.lt_or_ge v.length u.length with hvu | hvu
            · obtain ⟨w, hw1, hw2⟩ :=
                split3 v _ u t2 hv2.symm (Nat.le_of_lt hvu)
              have hstarv : '*' ∈ v := star_mem_of_suffix hvne hv1 htm3
              rw [hw1] at hustar
              exact absurd (List.mem_append.mpr (Or.inl hstarv)) hustar
            · obtain ⟨w2, hw21, hw22⟩ := split3 u t2 v _ hv2 hvu
              have hw2ne : w2 ≠ [] := by
                intro h
                rw [h, List.append_nil] at hw21
                have hstarv : '*' ∈ v := star_mem_of_suffix hvne hv1 htm3
                rw [hw21] at hstarv
                exact hustar hstarv
              have ht1ne : t1 ≠ [] := by
                intro h
                rw [h, List.nil_append] at hv1
                obtain ⟨tmh, htmh⟩ := hmHead
                rw [htmh] at hv1
                cases u with
                | nil => exact hune rfl
                | cons u0 ut =>
                  rw [← hv1, List.cons_append] at hw21
                  injection hw21 with hh _
                  rw [← hh] at hustar
                  exact hustar (List.mem_cons_self _ _)
              have hmeq : mask = t1 ++ u ++ w2 := by
                rw [hv1, hw21, List.append_assoc]
              have hclean := hmClean t1 u w2 hmeq ht1ne hune hw2ne
              have hctx2 : prevWAfter pw t1 = prevWAfter false t1 :=
                prevWAfter_ne_nil ht1ne pw false
              have hnw2 : isWordHead t2 = isWordHead w2 := by
                rw [hw22]
                exact isWordHead_ne_nil_append w2 _ hw2ne
              rw [hctx2, hnw2] at hsat
              exact absurd hsat hclean
          · obtain ⟨t1b, ht1, hO2⟩ := split3 mask _ t1 (u ++ t2) hr hge
            have hlen2 : ((c :: cs).drop (n2 + 1)).length ≤ fuel := by
              rw [List.length_drop]
              simp only [List.length_cons] at hlen ⊢
              omega
            have hrc :
                renderChunks mask
                    (chunksF p fuel
                      (prevWAfter pw ((c :: cs).take (n2 + 1)))
                      ((c :: cs).drop (n2 + 1)))
                  = t1b ++ u ++ t2 := by
              rw [hO2, List.append_assoc]
            have hkeysat :
                Sat2 q
                  (prevWAfter (prevWAfter pw ((c :: cs).take (n2 + 1))) t1b)
                  u (isWordHead t2) := by
              by_cases ht1e : t1b = []
              · subst ht1e
                rw [prevWAfter_nil]
                have hpwm : prevWAfter pw t1 = false := by
                  rw [ht1, List.append_nil]
                  obtain ⟨tm3, htm3⟩ := hmLast
                  rw [htm3]
                  exact prevWAfter_star_end pw tm3
                have hsatf : Sat2 q false u (isWordHead t2) := by
                  rw [← hpwm]
                  exact hsat
                simp only [List.nil_append] at hO2
                cases u with
                | nil => exact absurd rfl hune
                | cons u0 ut =>
                  obtain ⟨qits, hqits⟩ := hqLead
                  have hsatq := hsatf
                  rw [hqits] at hsatq
                  have hql := Sat2.leading_wb hsatq
                  simp only [isWordHeadD] at hql
                  have hu0w : wordChar u0 = true := by
                    cases hx : wordChar u0
                    · exact absurd hx.symm hql
                    · rfl
                  have hu0s : u0 ≠ '*' := by
                    intro h
                    refine hustar ?_
                    rw [h]
                    exact List.mem_cons_self _ _
                  have hO2c :
                      renderChunks mask
                          (chunksF p fuel
                            (prevWAfter pw ((c :: cs).take (n2 + 1)))
                            ((c :: cs).drop (n2 + 1)))
                        = u0 :: (ut ++ t2) := by
                    rw [hO2, List.cons_append]
                  have hhead :=
                    renderChunks_head p mask hmHead fuel _ _ u0 (ut ++ t2)
                      hO2c hu0s
                  have hps := (matchItems_sound p pw (c :: cs) (n2 + 1) hm).2
                  obtain ⟨pfront, hpf⟩ := hpTrail
                  have hptr := Sat2.trailing_wb hpf hps
                  rw [hhead, hu0w] at hptr
                  have hpw2f :
                      prevWAfter pw ((c :: cs).take (n2 + 1)) = false := by
                    cases hx : prevWAfter pw ((c :: cs).take (n2 + 1))
                    · rfl
                    · exact absurd hx hptr
                  rw [hpw2f]
                  exact hsatf
              · have hctx : prevWAfter pw t1 =
                    prevWAfter (prevWAfter pw ((c :: cs).take (n2 + 1)))
                      t1b := by
                  rw [ht1, prevWAfter_append]
                  exact prevWAfter_ne_nil ht1e _ _
                rw [← hctx]
                exact hsat
            obtain ⟨s1b, s2bb, hsplit, hsatb, hfail⟩ :=
              ih ((c :: cs).drop (n2 + 1))
                (prevWAfter pw ((c :: cs).take (n2 + 1))) t1b u t2 hlen2
                hrc hkeysat
            refine ⟨(c :: cs).take (n2 + 1) ++ s1b, s2bb, ?_, ?_, ?_⟩
            · have hjoin := List.take_append_drop (n2 + 1) (c :: cs)
              rw [hsplit] at hjoin
              conv_lhs => rw [← hjoin]
              simp [List.append_assoc]
            · rw [prevWAfter_append]
              exact hsatb
            · rw [prevWAfter_append]
              exact hfail


theorem GoodPat.lead {pat : List RItem} (h : GoodPat pat) :
    ∃ its, pat = .wb :: its := by
  obtain ⟨⟨p, lo, hi, rest, hk, _⟩, _, _, _⟩ := h
  exact ⟨_, hk⟩

theorem eq_concat_of_getLast? {α : Type} :
    ∀ {m : List α} {a : α}, m.getLast? = some a → ∃ t, m = t ++ [a] := by
  intro m
  induction m with
  | nil => intro a h; cases h
  | cons b t ih =>
    intro a h
    cases t with
    | nil =>
      simp only [List.getLast?_singleton, Option.some.injEq] at h
      exact ⟨[], by rw [h]; rfl⟩
    | cons c t2 =>
      rw [List.getLast?_cons_cons] at h
      obtain ⟨t3, ht3⟩ := ih h
      exact ⟨b :: t3, by rw [List.cons_append, ← ht3]⟩

theorem goodMask_of (m : List Char) (h1 : m.head? = some '*')
    (h2 : m.getLast? = some '*') : GoodMask m := by
  constructor
  · cases m with
    | nil => cases h1
    | cons c t =>
      simp only [List.head?_cons, Option.some.injEq] at h1
      exact ⟨t, by rw [h1]⟩
  · exact eq_concat_of_getLast? h2

/-- The bounded interior check `maskCleanB` is sound for `MaskClean`. -/
theorem maskClean_of_maskCleanB (pat : List RItem) (m : List Char)
    (h : maskCleanB pat m = true) : MaskClean pat m := by
  intro t1 u r hm ht1 hu hr hsat
  have ht1pos : 0 < t1.length := List.length_pos.mpr ht1
  have hupos : 0 < u.length := List.length_pos.mpr hu
  have hrpos : 0 < r.length := List.length_pos.mpr hr
  have hm' : m = t1 ++ (u ++ r) := by rw [hm, List.append_assoc]
  have hlenm : m.length = t1.length + (u.length + r.length) := by
    rw [hm']
    simp [List.length_append]
  simp only [maskCleanB, List.all_eq_true, List.mem_range] at h
  have h2 := h t1.length (by omega) u.length (by omega)
  simp only [Bool.or_eq_true, decide_eq_true_eq, Bool.not_eq_true'] at h2
  have htake1 : m.take t1.length = t1 := by
    rw [hm']
    exact List.take_left _ _
  have hdrop1 : m.drop t1.length = u ++ r := by
    rw [hm']
    exact List.drop_left _ _
  have hdrop_take : (m.drop t1.length).take u.length = u := by
    rw [hdrop1]
    exact List.take_left _ _
  have hdropjl : m.drop (t1.length + u.length) = r := by
    rw [hm]
    have hlen12 : t1.length + u.length = (t1 ++ u).length :=
      (List.length_append _ _).symm
    rw [hlen12]
    exact List.drop_left _ _
  rcases h2 with ((h2 | h2) | h2) | h2
  · omega
  · omega
  · omega
  · rw [htake1, hdrop_take, hdropjl] at h2
    have hchk := sat2CheckAux_complete hsat
    rw [h2] at hchk
    exact Bool.noConfusion hchk

/-- Masking a pattern purges every occurrence of that same pattern. -/
theorem noOcc_maskPattern_self (q : List RItem) (mq : List Char)
    (hqP : GoodPat q) (hmq : GoodMask mq) (hclean : MaskClean q mq)
    (x : List Char) : NoOcc q (maskPattern q mq x) := by
  simp only [NoOcc]
  intro s1 u s2 hx hsat
  simp only [maskPattern] at hx
  obtain ⟨S1, S2, hxeq, hsatS, hfail⟩ :=
    chunks_preserve_occ q q (GoodPat.lead hqP) hqP.2.1 (GoodPat.lead hqP)
      hqP.2.1 hqP.2.2.1 hqP.2.2.2 mq hmq.1 hmq.2 hclean x.length x false
      s1 u s2 (le_refl _) hx hsat
  rcases hfail with hnone | hzero
  · obtain ⟨mm, hmm⟩ := matchItems_complete hsatS S2 rfl
    rw [hnone] at hmm
    exact Option.noConfusion hmm
  · have hs := (matchItems_sound q (prevWAfter false S1) (u ++ S2) 0 hzero).2
    have hmin := Sat2.minConsume_le hs
    have hqpos := hqP.2.2.1
    simp at hmin
    omega

/-- Masking any well-shaped pattern with a clean mask introduces no new
occurrence of `q`. -/
theorem noOcc_maskPattern_other (q r : List RItem) (mr : List Char)
    (hrP : GoodPat r) (hqP : GoodPat q) (hmr : GoodMask mr)
    (hclean : MaskClean q mr) (x : List Char) (hno : NoOcc q x) :
    NoOcc q (maskPattern r mr x) := by
  simp only [NoOcc]
  intro s1 u s2 hx hsat
  simp only [maskPattern] at hx
  obtain ⟨S1, S2, hxeq, hsatS, _⟩ :=
    chunks_preserve_occ r q (GoodPat.lead hrP) hrP.2.1 (GoodPat.lead hqP)
      hqP.2.1 hqP.2.2.1 hqP.2.2.2 mr hmr.1 hmr.2 hclean x.length x false
      s1 u s2 (le_refl _) hx hsat
  exact hno S1 u S2 hxeq hsatS

theorem foldl_preserves_noOcc (content : List Char) (q : List RItem)
    (hqP : GoodPat q) :
    ∀ (L : List (String × List RItem × List Char)),
      (∀ e ∈ L, GoodPat e.2.1 ∧ GoodMask e.2.2 ∧ MaskClean q e.2.2) →
      ∀ (a : List String) (b : ℚ) (x : List Char), NoOcc q x →
        NoOcc q ((L.foldl (detectPIIStep content) (a, b, x)).2.2) := by
  intro L
  induction L with
  | nil =>
    intro _ a b x hx
    simpa using hx
  | cons e L' ih =>
    intro hall a b x hx
    have he := hall e (List.mem_cons_self _ _)
    have hall' := fun f hf => hall f (List.mem_cons_of_mem _ hf)
    simp only [List.foldl_cons, detectPIIStep]
    by_cases hc : 0 < scanCount e.2.1 content
    · rw [if_pos hc]
      exact ih hall' _ _ _
        (noOcc_maskPattern_other q e.2.1 e.2.2 he.1 hqP he.2.1 he.2.2 x hx)
    · rw [if_neg hc]
      exact ih hall' a b x hx

theorem foldl_detect_noOcc (content : List Char) (q : List RItem)
    (hqP : GoodPat q) :
    ∀ (L : List (String × List RItem × List Char)),
      (∀ e ∈ L, GoodPat e.2.1 ∧ GoodMask e.2.2 ∧ MaskClean q e.2.2) →
      (∃ name mq, (name, q, mq) ∈ L) →
      ∀ (a : List String) (b : ℚ) (x : List Char),
        (scanCount q content = 0 → NoOcc q x) →
        NoOcc q ((L.foldl (detectPIIStep content) (a, b, x)).2.2) := by
  intro L
  induction L with
  | nil =>
    intro _ hmem
    obtain ⟨_, _, h⟩ := hmem
    simp at h
  | cons e L' ih =>
    intro hall hmem a b x hx
    obtain ⟨name, mq, hmemq⟩ := hmem
    have hall' := fun f hf => hall f (List.mem_cons_of_mem _ hf)
    simp only [List.foldl_cons, detectPIIStep]
    rcases List.mem_cons.mp hmemq with heq | hmem'
    · subst heq
      have he := hall (name, q, mq) (List.mem_cons_self _ _)
      by_cases hc : 0 < scanCount q content
      · rw [if_pos hc]
        exact foldl_preserves_noOcc content q hqP L' hall' _ _ _
          (noOcc_maskPattern_self q mq hqP he.2.1 he.2.2 x)
      · rw [if_neg hc]
        have hz : scanCount q content = 0 := by omega
        exact foldl_preserves_noOcc content q hqP L' hall' a b x (hx hz)
    · have he := hall e (List.mem_cons_self _ _)
      by_cases hc : 0 < scanCount e.2.1 content
      · rw [if_pos hc]
        refine ih hall' ⟨name, mq, hmem'⟩ _ _ _ ?_
        intro hz
        exact noOcc_maskPattern_other q e.2.1 e.2.2 he.1 hqP he.2.1 he.2.2
          x (hx hz)
      · rw [if_neg hc]
        exact ih hall' ⟨name, mq, hmem'⟩ a b x hx

theorem foldl_detect_id (content : List Char) :
    ∀ (L : List (String × List RItem × List Char)),
      (∀ e ∈ L, scanCount e.2.1 content = 0) →
      ∀ acc : List String × ℚ × List Char,
        L.foldl (detectPIIStep content) acc = acc := by
  intro L
  induction L with
  | nil => intro _ acc; rfl
  | cons e L' ih =>
    intro h acc
    have he := h e (List.mem_cons_self _ _)
    simp only [List.foldl_cons, detectPIIStep]
    rw [if_neg (by omega)]
    exact ih (fun f hf => h f (List.mem_cons_of_mem _ hf)) acc

theorem foldl_conf_nonneg (content : List Char) :
    ∀ (L : List (String × List RItem × List Char)) (a : List String)
      (b : ℚ) (x : List Char), 0 ≤ b →
        0 ≤ (L.foldl (detectPIIStep content) (a, b, x)).2.1 := by
  intro L
  induction L with
  | nil =>
    intro a b x hb
    simpa using hb
  | cons e L' ih =>
    intro a b x hb
    simp only [List.foldl_cons, detectPIIStep]
    by_cases hc : 0 < scanCount e.2.1 content
    · rw [if_pos hc]
      apply ih
      have hterm : (0:ℚ) ≤ (scanCount e.2.1 content : ℚ) * (1 / 10) := by
        positivity
      linarith
    · rw [if_neg hc]
      exact ih a b x hb

theorem goodPat_mem : ∀ e ∈ PII_PATTERNS, GoodPat e.2.1 := by
  intro e he
  simp only [PII_PATTERNS, List.mem_cons, List.not_mem_nil, or_false] at he
  rcases he with rfl | rfl | rfl | rfl | rfl | rfl | rfl | rfl
  · exact ⟨⟨_, _, _, _, rfl, by decide⟩,
      ⟨[.wb, .cls localChar 1 none, .lit '@', .cls domainChar 1 none,
        .lit '.', .cls tldChar 2 none], rfl⟩, by decide, by decide⟩
  · exact ⟨⟨_, _, _, _, rfl, by decide⟩,
      ⟨[.wb, .cls digitChar 3 (some 3), .lit '-', .cls digitChar 2 (some 2),
        .lit '-', .cls digitChar 4 (some 4)], rfl⟩, by decide, by decide⟩
  · exact ⟨⟨_, _, _, _, rfl, by decide⟩,
      ⟨[.wb, .cls digitChar 3 (some 3), .cls dashDotChar 0 (some 1),
        .cls digitChar 3 (some 3), .cls dashDotChar 0 (some 1),
        .cls digitChar 4 (some 4)], rfl⟩, by decide, by decide⟩
  · exact ⟨⟨_, _, _, _, rfl, by decide⟩,
      ⟨[.wb, .cls digitChar 4 (some 4), .cls spaceDashChar 0 (some 1),
        .cls digitChar 4 (some 4), .cls spaceDashChar 0 (some 1),
        .cls digitChar 4 (some 4), .cls spaceDashChar 0 (some 1),
        .cls digitChar 4 (some 4)], rfl⟩, by decide, by decide⟩
  · exact ⟨⟨_, _, _, _, rfl, by decide⟩,
      ⟨[.wb, .cls digitChar 1 (some 3), .lit '.', .cls digitChar 1 (some 3),
        .lit '.', .cls digitChar 1 (some 3), .lit '.',
        .cls digitChar 1 (some 3)], rfl⟩, by decide, by decide⟩
  · exact ⟨⟨_, _, _, _, rfl, by decide⟩,
      ⟨[.wb, .cls upperChar 1 (some 2), .cls digitChar 6 (some 9)], rfl⟩,
      by decide, by decide⟩
  · exact ⟨⟨_, _, _, _, rfl, by decide⟩,
      ⟨[.wb, .cls upperChar 1 (some 2), .cls digitChar 6 (some 8)], rfl⟩,
      by decide, by decide⟩
  · exact ⟨⟨_, _, _, _, rfl, by decide⟩,
      ⟨[.wb, .cls digitChar 8 (some 17)], rfl⟩, by decide, by decide⟩

theorem goodMask_mem : ∀ e ∈ PII_PATTERNS, GoodMask e.2.2 := by
  intro e he
  simp only [PII_PATTERNS, List.mem_cons, List.not_mem_nil, or_false] at he
  rcases he with rfl | rfl | rfl | rfl | rfl | rfl | rfl | rfl <;>
    exact goodMask_of _ (by decide) (by decide)

theorem allPairsClean :
    ∀ e ∈ PII_PATTERNS, ∀ f ∈ PII_PATTERNS, MaskClean e.2.1 f.2.2 := by
  intro e he f hf
  simp only [PII_PATTERNS, List.mem_cons, List.not_mem_nil, or_false] at he hf
  rcases he with rfl | rfl | rfl | rfl | rfl | rfl | rfl | rfl <;>
    rcases hf with rfl | rfl | rfl | rfl | rfl | rfl | rfl | rfl <;>
    exact maskClean_of_maskCleanB _ _ (by decide)

/-- After one `detectPII` pass, no pattern of the table matches anywhere in
the masked content. -/
theorem masked_scan_zero (content : List Char) :
    ∀ e ∈ PII_PATTERNS,
      scanCount e.2.1 ((detectPII content).maskedContent) = 0 := by
  intro e he
  have hq := goodPat_mem e he
  have hall : ∀ f ∈ PII_PATTERNS,
      GoodPat f.2.1 ∧ GoodMask f.2.2 ∧ MaskClean e.2.1 f.2.2 :=
    fun f hf => ⟨goodPat_mem f hf, goodMask_mem f hf, allPairsClean e he f hf⟩
  have hmem : ∃ name mq, (name, e.2.1, mq) ∈ PII_PATTERNS :=
    ⟨e.1, e.2.2, by simpa using he⟩
  have hinit : scanCount e.2.1 content = 0 → NoOcc e.2.1 content := by
    intro hz
    exact noOcc_of_scan_zero e.2.1 hq.2.2.1 content.length content false
      (le_refl _) hz
  have hno : NoOcc e.2.1 ((detectPII content).maskedContent) := by
    have hfold := foldl_detect_noOcc content e.2.1 hq PII_PATTERNS hall
      hmem [] 0 content hinit
    simpa [detectPII] using hfold
  exact scan_zero_of_noOcc e.2.1 ((detectPII content).maskedContent).length
    ((detectPII content).maskedContent) false hno

/-- On content where no pattern matches, `detectPII` reports no PII and
returns the content unchanged. -/
theorem detectPII_clean (x : List Char)
    (h : ∀ e ∈ PII_PATTERNS, scanCount e.2.1 x = 0) :
    (detectPII x).hasPII = false ∧ (detectPII x).maskedContent = x := by
  have hfold := foldl_detect_id x PII_PATTERNS h ([], 0, x)
  constructor
  · simp only [detectPII]
    rw [hfold]
    rfl
  · simp only [detectPII]
    rw [hfold]

/-- **C8** — For every input string, `detectPII` returns a confidence
score that is at least 0 and at most 1, and detection is idempotent on
masked output: running `detectPII` on the `maskedContent` produced by a
previous `detectPII` call detects no PII (`hasPII = false`) and leaves
the content unchanged. -/
theorem detectPII_spec (content : List Char) :
    0 ≤ (detectPII content).confidence ∧
    (detectPII content).confidence ≤ 1 ∧
    (detectPII ((detectPII content).maskedContent)).hasPII = false ∧
    (detectPII ((detectPII content).maskedContent)).maskedContent =
      (detectPII content).maskedContent := by
  have hzero := masked_scan_zero content
  have hid := detectPII_clean ((detectPII content).maskedContent) hzero
  refine ⟨?_, ?_, hid.1, hid.2⟩
  · simp only [detectPII]
    exact le_min
      (foldl_conf_nonneg content PII_PATTERNS [] 0 content (le_refl 0))
      (by norm_num)
  · simp only [detectPII]
    exact min_le_right _ _

end LogLine
